import Mathlib

/-!
# A verification model of the DocDB document storage layer

This file gives a shallow embedding of the hierarchical-document storage
layer described in `spec.md` and exercised by `src/src/yb/docdb/docdb-test.cc`.
The implementation sources (key codec, write batch builder, document reader,
compaction filter) are not part of the repository snapshot; only the test file
is.  All operational definitions below are therefore modelled from the spec,
with every behavioural choice cross-checked against the expected-state dumps
asserted byte-for-byte by the tests (which are authoritative source code).

Conventions of the model:
* A hybrid time is a natural number (the tests' `HT{ physical: ... }` value).
* A `DocHybridTime` is a hybrid time together with an intra-batch write id;
  it orders lexicographically, and readers scan newest-first.
* TTLs are `Option Nat`; `none` is the `Value::kMaxTtl` sentinel ("never
  expires").  Per the expected dumps of `TTLCompactionTest` (an entry whose
  expiration time equals the history cutoff survives the compaction), an
  entry with ttl `d` written at `t` is expired at time `now` iff `t + d < now`.
* A store is the flat list of physical entries for one document (DocKey);
  all operations and all claims here are per-document.
-/

namespace DocDb

/-- The tagged primitive value union of the value model (§3 of the spec).
Strings and inet addresses carry their raw bytes. -/
inductive PrimitiveValue where
  | kNull : PrimitiveValue
  | kString : List Nat → PrimitiveValue
  | kInt64 : Int → PrimitiveValue
  | kInetaddress : List Nat → PrimitiveValue
  | kObject : PrimitiveValue
  | kArray : PrimitiveValue
  | kTombstone : PrimitiveValue
  | kColumnId : Nat → PrimitiveValue
  | kSystemColumnId : Nat → PrimitiveValue
  | kArrayIndex : Int → PrimitiveValue
  deriving DecidableEq, Repr

/-- Is this value one of the two structural collection markers (`{}` / `[]`)? -/
def PrimitiveValue.isCollectionMarker : PrimitiveValue → Bool
  | .kObject => true
  | .kArray => true
  | _ => false

/-- A `DocHybridTime`: hybrid time plus intra-batch write id. -/
abbrev DHT := Nat × Nat

/-- Strict lexicographic order on `DocHybridTime`. -/
def dhtLtB (a b : DHT) : Bool := a.1 < b.1 || (a.1 = b.1 && a.2 < b.2)

/-- `lb < d` for an optional exclusive lower bound (`none` = unbounded). -/
def obLt (lb : Option DHT) (d : DHT) : Bool :=
  match lb with
  | none => true
  | some l => dhtLtB l d

/-- One physical RocksDB entry of a document: subkey path, `DocHybridTime`,
value, per-value TTL (`none` = `kMaxTtl`), optional user timestamp. -/
structure DocEntry where
  subkeys : List PrimitiveValue
  dht : DHT
  value : PrimitiveValue
  ttl : Option Nat := none
  uts : Option Int := none
  deriving DecidableEq, Repr

/-- The physical state of one document: all its entries, in insertion order. -/
abbrev Store := List DocEntry

/-- Modelled from the spec (§4.3, §4.4) and pinned by `TTLCompactionTest`:
the entry is expired as of `now` iff its expiration time `write_time + ttl`
is strictly before `now` (`FullyCompactHistoryBefore(t2)` keeps the entry
whose expiration time is exactly `t2`). -/
def isExpired (e : DocEntry) (now : Nat) : Bool :=
  match e.ttl with
  | none => false
  | some d => e.dht.1 + d < now

/-- The entries at subkey path `p` visible at read time `rt` above the
exclusive shadow bound `lb` (the `DocHybridTime` of the newest ancestor
overwrite / tombstone / init marker). -/
def candidates (s : Store) (p : List PrimitiveValue) (rt : Nat) (lb : Option DHT) :
    List DocEntry :=
  s.filter fun e => e.subkeys = p && e.dht.1 ≤ rt && obLt lb e.dht

/-- Fold step selecting the newest (max `DocHybridTime`) entry. -/
def pickLatest (acc : Option DocEntry) (e : DocEntry) : Option DocEntry :=
  match acc with
  | none => some e
  | some a => if dhtLtB a.dht e.dht then some e else some a

/-- Modelled from the spec (§4.3): the newest entry at `p` whose hybrid time
is at or below the read time and above the ancestor shadow bound.  This is
the entry that determines the sub-path's visible value. -/
def latestAt (s : Store) (p : List PrimitiveValue) (rt : Nat) (lb : Option DHT) :
    Option DocEntry :=
  (candidates s p rt lb).foldl pickLatest none

/-- Raise the shadow bound by the `DocHybridTime` of a visible entry. -/
def bump (lb : Option DHT) (me : Option DocEntry) : Option DHT :=
  match me with
  | none => lb
  | some e => some e.dht

/-- Walk the proper prefixes of a subkey path accumulating the shadow bound:
each ancestor's visible entry (init marker, leaf or tombstone, live or
expired) shadows everything older underneath it. -/
def lbWalk (s : Store) (rt : Nat) : List PrimitiveValue → List PrimitiveValue →
    Option DHT → Option DHT
  | _, [], lb => lb
  | q, k :: rest, lb => lbWalk s rt (q ++ [k]) rest (bump lb (latestAt s q rt lb))

/-- The shadow bound in force at subkey path `p` (accumulated over all of
its proper prefixes, starting at the document root). -/
def lbAt (s : Store) (rt : Nat) (p : List PrimitiveValue) : Option DHT :=
  lbWalk s rt [] p none

/-- The entry determining path `p`'s visible state at read time `rt`. -/
def entryAt (s : Store) (rt : Nat) (p : List PrimitiveValue) : Option DocEntry :=
  latestAt s p rt (lbAt s rt p)

/-- Modelled from the spec (§4.3): the live value at path `p` as of read
time `rt` — `none` when the path carries no visible entry, a tombstone, or
an expired value (an expired value behaves exactly like a tombstone: it is
absent, yet still shadows everything older below it). -/
def liveValueAt (s : Store) (rt : Nat) (p : List PrimitiveValue) :
    Option PrimitiveValue :=
  match entryAt s rt p with
  | none => none
  | some e => if e.value = .kTombstone || isExpired e rt then none else some e.value

/-- Modelled from the spec (§4.3): `GetSubDocument`'s `found` flag for the
sub-document rooted at `p` — the subtree holds a live leaf or a live
collection marker somewhere at or below `p`. -/
def subDocPresent (s : Store) (rt : Nat) (p : List PrimitiveValue) : Bool :=
  s.any fun e => p.isPrefixOf e.subkeys && (liveValueAt s rt e.subkeys).isSome

/-! ## The write batch builder -/

/-- A `Value` as attached to one write: primitive value, per-value TTL
(`none` = `kMaxTtl`) and optional user-supplied timestamp. -/
structure WriteValue where
  v : PrimitiveValue
  ttl : Option Nat := none
  uts : Option Int := none
  deriving DecidableEq, Repr

/-- One physical put emitted by the write batch builder. -/
structure Put where
  subkeys : List PrimitiveValue
  val : WriteValue
  deriving DecidableEq, Repr

/-- The two init-marker policies of the write batch builder. -/
inductive InitMarkerBehavior where
  | required
  | optional
  deriving DecidableEq, Repr

/-- Apply a batch of puts at hybrid time `t`: the puts share `t` and receive
sequentially increasing write ids (spec §4.2). -/
def applyBatch (s : Store) (t : Nat) (puts : List Put) : Store :=
  s ++ (puts.enum.map fun pi =>
    { subkeys := pi.2.subkeys, dht := (t, pi.1), value := pi.2.val.v,
      ttl := pi.2.val.ttl, uts := pi.2.val.uts })

/-- All proper prefixes of a subkey path, starting with the empty (document
root) path. -/
def properPrefixes : List PrimitiveValue → List (List PrimitiveValue)
  | [] => []
  | k :: rest => [] :: (properPrefixes rest).map (k :: ·)

/-- The physically newest entry at path `q`, irrespective of read time —
this is the existing state a write with a user timestamp is compared to. -/
def latestPhysAt (s : Store) (q : List PrimitiveValue) : Option DocEntry :=
  (s.filter fun e => e.subkeys = q).foldl pickLatest none

/-- The effective timestamp of an existing entry for the staleness
comparison: its user timestamp when present, else its hybrid time. -/
def effTs (e : DocEntry) : Int :=
  match e.uts with
  | some u => u
  | none => (e.dht.1 : Int)

/-- Modelled from the spec (§4.3) and `TestUserTimestamp` /
`TestCompactionWithUserTimestamp`: when a user timestamp is present on the
incoming value or on the newest existing entry at the target path or one of
its ancestors, it participates in the staleness comparison instead of the
hybrid time; the write proceeds only when its effective timestamp is
equal-or-higher.  Writes without user timestamps on either side are never
blocked. -/
def utsAllowed (s : Store) (t : Nat) (path : List PrimitiveValue)
    (uts : Option Int) : Bool :=
  (properPrefixes path ++ [path]).all fun q =>
    match latestPhysAt s q with
    | none => true
    | some e =>
      if e.uts = none && uts = none then true
      else (uts.getD (t : Int)) ≥ effTs e

/-- Modelled from the spec (§4.2) and `DocDBTest.BasicTest` /
`TestUserTimestamp` / `TestDisambiguationOnWriteId`: `SetPrimitive` as a
pure function from the current store to the list of puts of this operation.
* User timestamps are rejected under the `required` init-marker policy
  (pinned by the `ASSERT_NOK` of `TestUserTimestamp`).
* A write losing the user-timestamp staleness comparison is silently
  dropped (status OK, no puts).
* A tombstone write materialises only if the target path currently
  resolves when init markers are `required` (pinned by `TestDeletion` of
  a non-existent path in `BasicTest`, which emits an empty batch);
  with `optional` markers it is written unconditionally.
* Otherwise the builder emits `{}` init-marker puts for every ancestor
  that does not currently resolve to a live collection (only under the
  `required` policy) followed by the leaf put. -/
def setPrimitivePuts (mode : InitMarkerBehavior) (s : Store) (t : Nat)
    (path : List PrimitiveValue) (val : WriteValue) : Except String (List Put) :=
  if mode = .required && val.uts.isSome then
    .error "user timestamps require optional init markers"
  else if ¬ utsAllowed s t path val.uts then
    .ok []
  else if val.v = .kTombstone then
    match mode with
    | .optional => .ok [{ subkeys := path, val := val }]
    | .required =>
      if subDocPresent s t path then .ok [{ subkeys := path, val := val }]
      else .ok []
  else
    let markers :=
      match mode with
      | .optional => []
      | .required =>
        (properPrefixes path).filter fun q =>
          ¬ ((liveValueAt s t q).getD .kTombstone).isCollectionMarker
    .ok ((markers.map fun q => { subkeys := q, val := { v := .kObject } }) ++
      [{ subkeys := path, val := val }])

/-- `DeleteSubDoc(path)`: `SetPrimitive` of a tombstone (spec §4.2). -/
def deleteSubDocPuts (mode : InitMarkerBehavior) (s : Store) (t : Nat)
    (path : List PrimitiveValue) : Except String (List Put) :=
  setPrimitivePuts mode s t path { v := .kTombstone }

/-- Modelled from the spec (§4.2) and the `SetPrimitiveQL` dump:
`InsertSubDocument(path, doc)` writes the collection marker at `path`
followed by the flattened subtree (relative paths paired with leaf values);
nested objects stay implicit (no nested init markers appear in the dumps).
The marker's `DocHybridTime` shadows the previous subtree, which makes
insert mean replace. -/
def insertSubDocumentPuts (path : List PrimitiveValue)
    (marker : PrimitiveValue) (kvs : List (List PrimitiveValue × PrimitiveValue))
    (ttl : Option Nat := none) : List Put :=
  { subkeys := path, val := { v := marker, ttl := ttl } } ::
    kvs.map fun kv => { subkeys := path ++ kv.1, val := { v := kv.2, ttl := ttl } }

/-- `ExtendSubDocument(path, doc)`: like insert but without the marker, so
untouched keys survive (spec §4.2, pinned by the `SetPrimitiveQL` dump). -/
def extendSubDocumentPuts (path : List PrimitiveValue)
    (kvs : List (List PrimitiveValue × PrimitiveValue))
    (ttl : Option Nat := none) : List Put :=
  kvs.map fun kv => { subkeys := path ++ kv.1, val := { v := kv.2, ttl := ttl } }

/-! ## Lists -/

/-- The absolute value of a list-element index component (0 otherwise). -/
def idxAbs : PrimitiveValue → Nat
  | .kArrayIndex i => i.natAbs
  | _ => 0

/-- The largest absolute list-element index appearing in a subkey path. -/
def maxAbsIdxOf (ks : List PrimitiveValue) : Nat :=
  ks.foldl (fun m k => max m (idxAbs k)) 0

/-- The list-index high-water mark of a store: the largest absolute
`ArrayIndex` ever allocated.  The `ListInsertAndGetTest` dump pins this
allocation scheme: consecutive operations allocate 1,2 then 3,4,5,6 then
-7,-8 then 9,10 then 11,12 — one monotone counter of absolute values
shared by appends and prepends. -/
def watermark (s : Store) : Nat :=
  s.foldl (fun m e => max m (maxAbsIdxOf e.subkeys)) 0

/-- The list-extend order. -/
inductive ListExtendOrder where
  | append
  | prepend
  deriving DecidableEq, Repr

/-- Modelled from the spec (§4.2) and the `ListInsertAndGetTest` dump:
`ExtendList` allocates fresh indices strictly beyond the watermark —
ascending positive for `APPEND` (arrival order = index order), descending
negative for `PREPEND` (the first arrival gets the most negative index, so
arrival order again equals ascending index order; the puts are emitted in
reverse, pinned by the write ids `w: 1` on `ArrayIndex(-8)` and `w: 0` on
`ArrayIndex(-7)` of the dump). -/
def extendListPuts (s : Store) (path : List PrimitiveValue)
    (elems : List PrimitiveValue) (order : ListExtendOrder) : List Put :=
  let wm := watermark s
  match order with
  | .append =>
    elems.enum.map fun ei =>
      { subkeys := path ++ [.kArrayIndex ((wm : Int) + 1 + ei.1)], val := { v := ei.2 } }
  | .prepend =>
    elems.reverse.enum.map fun ei =>
      { subkeys := path ++ [.kArrayIndex (-((wm : Int) + 1 + ei.1))], val := { v := ei.2 } }

/-- Ascending insertion sort on integers. -/
def sortAsc (l : List Int) : List Int := l.insertionSort (· ≤ ·)

/-- The ascending-index enumeration of the live list elements at `path` as
of read time `rt` — the order in which the document reader exposes the
list (spec §4.3). -/
def listIndicesAsc (s : Store) (rt : Nat) (path : List PrimitiveValue) : List Int :=
  sortAsc ((s.filterMap fun e =>
    match e.subkeys.drop path.length with
    | [PrimitiveValue.kArrayIndex i] =>
      if e.subkeys.take path.length = path &&
          (liveValueAt s rt (path ++ [.kArrayIndex i])).isSome then some i else none
    | _ => none).dedup)

/-- Modelled from the `ListInsertAndGetTest` dump: `ReplaceInList` addresses
the element at logical position `i` of the ascending-index enumeration
counting from 1 (the dump shows position 2 rewriting `ArrayIndex(-7)`, the
second of `[-8, -7, 1, 2, 9, 10]`, and position 4 rewriting `ArrayIndex(2)`,
the fourth).  Out-of-range positions are skipped, not errors (spec §4.2). -/
def replaceInListPuts (s : Store) (path : List PrimitiveValue)
    (positions : List Nat) (vals : List PrimitiveValue) (readHt : Nat) : List Put :=
  (positions.zip vals).filterMap fun pv =>
    match (listIndicesAsc s readHt path).drop (pv.1 - 1) with
    | [] => none
    | i :: _ =>
      if pv.1 = 0 then none
      else some { subkeys := path ++ [.kArrayIndex i], val := { v := pv.2 } }

/-! ## The compaction filter -/

/-- An entry is superseded within the set `view` of entries a compaction
can see when a strictly newer entry at the same path or an ancestor path
has hybrid time at or below the history cutoff (spec §4.4: only the latest
version at or below the cutoff is retained per sub-path, and an ancestor
overwrite or tombstone at or below the cutoff obsoletes it). -/
def viewSuperseded (view : Store) (cutoff : Nat) (e : DocEntry) : Bool :=
  view.any fun w =>
    w.subkeys.isPrefixOf e.subkeys && dhtLtB e.dht w.dht && w.dht.1 ≤ cutoff

/-- An entry a full compaction removes even when it is the latest version:
a tombstone at or below the cutoff, or an entry expired at the cutoff. -/
def deadAtCutoff (e : DocEntry) (cutoff : Nat) : Bool :=
  (e.value = .kTombstone && e.dht.1 ≤ cutoff) || isExpired e cutoff

/-- Modelled from the spec (§4.4) and pinned by the expected dumps of
`DocDBTest.BasicTest`, `HistoryCompactionFirstRowHandlingRegression`,
`ExpiredValueCompactionTest`, `TTLCompactionTest` and
`TestDisambiguationOnWriteId`: a full compaction with history cutoff `c`
drops every superseded version, every tombstone at or below the cutoff and
every entry expired at the cutoff, and keeps everything else unchanged. -/
def fullCompact (s : Store) (cutoff : Nat) : Store :=
  s.filter fun e => ¬ viewSuperseded s cutoff e && ¬ deadAtCutoff e cutoff

/-- Modelled from the spec (§4.4) and the `MinorCompaction*` tests: the
per-entry decision of a minor compaction, which sees only the subset
`view` of the entries.  Superseded-in-view versions are dropped; tombstones
are always retained (an unseen earlier file may still hold a version they
must shadow); an expired collection init marker is retained as-is rather
than being turned into a tombstone (comment in
`ExpectedDebugDumpForCollectionWithTTL`); any other expired value is
rewritten into a tombstone at the same `DocHybridTime` (pinned by the
`DEL` entries of the `MinorCompactionsForCollectionsWithTTL` dump). -/
def minorKeep (view : Store) (cutoff : Nat) (e : DocEntry) : Option DocEntry :=
  if viewSuperseded view cutoff e then none
  else if e.value = .kTombstone then some e
  else if isExpired e cutoff then
    if e.value.isCollectionMarker then some e
    else some { subkeys := e.subkeys, dht := e.dht, value := .kTombstone,
                ttl := none, uts := none }
  else some e

/-- Compact the newest `k` files of an SSTable stack (older files first in
the list).  When every file is in the compaction it is a full (major)
compaction; otherwise it is a minor compaction over the suffix. -/
def compactFiles (files : List Store) (k : Nat) (cutoff : Nat) : List Store :=
  let older := files.take (files.length - k)
  let view := (files.drop (files.length - k)).flatten
  if older.isEmpty then [fullCompact view cutoff]
  else older ++ [view.filterMap (minorKeep view cutoff)]

/-! ## The key codec

Modelled from the spec (§4.1) and the binary expectations of
`DocDBTest.BasicTest`: strings are zero-escaped (`0x00 ↦ 0x00 0x01`) and
terminated by the two-byte sentinel `0x00 0x00`; signed 64-bit integers are
encoded sign-flipped big-endian ('I' = `0x49` tag, then `value + 2^63` in 8
bytes, cf. the expected bytes `I\x80\x00\x00\x00\x00\x01\xe2@` for
`123456`); strings carry the 'S' = `0x53` tag; inet addresses carry the
'J' = `0x4a` tag followed by the raw 4-byte (IPv4) or 16-byte (IPv6)
address, zero-escaped and terminated like a string (the resulting order is
pinned by the `TestInetSortOrder` dump); component groups end with '!' =
`0x21`; the hybrid-time suffix starts with `0x23` and holds the bit-inverted
`DocHybridTime` so that newer entries sort first. -/

/-- Strict lexicographic (shortlex-compatible byte-wise) order on byte
strings: exactly the order of the underlying ordered key-value store. -/
def lexLtB : List Nat → List Nat → Bool
  | [], [] => false
  | [], _ :: _ => true
  | _ :: _, [] => false
  | a :: as, b :: bs => if a < b then true else if a = b then lexLtB as bs else false

/-- Zero-escaping of string content: `0x00` becomes `0x00 0x01`. -/
def escape : List Nat → List Nat
  | [] => []
  | b :: r => if b = 0 then 0 :: 1 :: escape r else b :: escape r

/-- Escaped string content plus the `0x00 0x00` terminator. -/
def strEnc (s : List Nat) : List Nat := escape s ++ [0, 0]

/-- `n` in `k` big-endian bytes (most significant first). -/
def beBytes : Nat → Nat → List Nat
  | 0, _ => []
  | k + 1, n => n / 256 ^ k % 256 :: beBytes k n

/-- A key component of the kinds the ordering claims speak about. -/
inductive KComp where
  | kcInt : Int → KComp
  | kcInet : List Nat → KComp
  | kcStr : List Nat → KComp
  deriving DecidableEq, Repr

/-- The key encoding of one component. -/
def kcEnc : KComp → List Nat
  | .kcInt n => 0x49 :: beBytes 8 (n + 2 ^ 63).toNat
  | .kcInet bs => 0x4a :: strEnc bs
  | .kcStr s => 0x53 :: strEnc s

/-- The logical order on components: the fixed cross-tag order (int < inet
< string, matching the tag bytes), numeric order on integers, and
byte-lexicographic order on the raw string / address bytes. -/
def kcLtB : KComp → KComp → Bool
  | .kcInt a, .kcInt b => a < b
  | .kcInt _, .kcInet _ => true
  | .kcInt _, .kcStr _ => true
  | .kcInet _, .kcInt _ => false
  | .kcInet a, .kcInet b => lexLtB a b
  | .kcInet _, .kcStr _ => true
  | .kcStr _, .kcInt _ => false
  | .kcStr _, .kcInet _ => false
  | .kcStr a, .kcStr b => lexLtB a b

/-- Strict lexicographic order on component sequences. -/
def kcListLtB : List KComp → List KComp → Bool
  | [], [] => false
  | [], _ :: _ => true
  | _ :: _, [] => false
  | a :: as, b :: bs => if kcLtB a b then true else if a = b then kcListLtB as bs else false

/-- A `DocKey`: optional hash bucket, hashed components (meaningful only
when the hash is present), range components (spec §3). -/
structure DocKey where
  hash : Option Nat := none
  hashed : List KComp := []
  range : List KComp := []
  deriving DecidableEq, Repr

/-- A component group followed by the `kGroupEnd` terminator `'!'`. -/
def compsEnc (l : List KComp) : List Nat := (l.map kcEnc).flatten ++ [0x21]

/-- The `DocKey` encoding: hashed doc keys start with the `0x47` hash tag
and the two-byte big-endian bucket, then the hashed group, then the range
group; unhashed doc keys are just the range group. -/
def dkEnc (dk : DocKey) : List Nat :=
  match dk.hash with
  | none => compsEnc dk.range
  | some h => 0x47 :: (beBytes 2 h ++ (compsEnc dk.hashed ++ compsEnc dk.range))

/-- The logical `DocKey` order of the spec (§3): compare
`(hash, hashed_components, range_components)` lexicographically, hashed
components only when the hash is present. -/
def dkLtB (a b : DocKey) : Bool :=
  match a.hash, b.hash with
  | none, none => kcListLtB a.range b.range
  | none, some _ => true
  | some _, none => false
  | some h1, some h2 =>
    if h1 < h2 then true
    else if h1 = h2 then
      if kcListLtB a.hashed b.hashed then true
      else if a.hashed = b.hashed then kcListLtB a.range b.range
      else false
    else false

/-- The encoded hybrid-time suffix of a `SubDocKey`: the `0x23` marker byte
followed by the bit-inverted hybrid time and the bit-inverted write id, so
that larger (newer) `DocHybridTime`s yield smaller byte strings. -/
def dhtEnc (d : DHT) : List Nat :=
  0x23 :: (beBytes 8 (2 ^ 64 - 1 - d.1) ++ beBytes 4 (2 ^ 32 - 1 - d.2))

/-- The full `SubDocKey` encoding: encoded `DocKey`, encoded subkeys, then
the hybrid-time suffix. -/
def sdkEnc (dk : DocKey) (sks : List KComp) (d : DHT) : List Nat :=
  dkEnc dk ++ ((sks.map kcEnc).flatten ++ dhtEnc d)

/-- The numeric value of a raw big-endian address byte string — the
"numeric across IPv4/IPv6" reading of the inet ordering claim. -/
def bytesVal (bs : List Nat) : Nat := bs.foldl (fun a b => a * 256 + b) 0

/-- Validity of a component: integers fit in a signed 64-bit word. -/
def kcValid : KComp → Prop
  | .kcInt n => -(2 ^ 63) ≤ n ∧ n < 2 ^ 63
  | _ => True

/-- Validity of a `DocHybridTime`: both fields fit their encodings. -/
def dhtValid (d : DHT) : Prop := d.1 < 2 ^ 64 ∧ d.2 < 2 ^ 32

/-- Validity of a `DocKey`: all components valid, the hash bucket fits its
two-byte encoding, and hashed components appear only with a hash (the
spec: hashed components are meaningful only when the hash is present). -/
def dkValid (dk : DocKey) : Prop :=
  (∀ c ∈ dk.hashed, kcValid c) ∧ (∀ c ∈ dk.range, kcValid c) ∧
  (dk.hash = none → dk.hashed = []) ∧ (∀ h, dk.hash = some h → h < 2 ^ 16)

/-- The visible value one physical entry contributes when it is the newest
version of its sub-path: nothing for a tombstone or an expired value,
otherwise the stored value (the `some e` branch of `liveValueAt`). -/
def visVal (e : DocEntry) (rt : Nat) : Option PrimitiveValue :=
  if e.value = .kTombstone || isExpired e rt then none else some e.value

/-- Read-equivalence of two physical entries at read time `rt`: same
sub-path, same `DocHybridTime`, same visible value.  A minor compaction's
rewrite of an expired value into a tombstone produces an entry related to
the original in this sense. -/
def entRel (rt : Nat) (e1 e2 : DocEntry) : Prop :=
  e1.subkeys = e2.subkeys ∧ e1.dht = e2.dht ∧ visVal e1 rt = visVal e2 rt

/-! ## Basic order lemmas -/

theorem dhtLtB_irrefl (a : DHT) : dhtLtB a a = false := by
  simp [dhtLtB]

theorem dhtLtB_asymm {a b : DHT} (h : dhtLtB a b = true) : dhtLtB b a = false := by
  simp only [dhtLtB, Bool.or_eq_true, Bool.and_eq_true, decide_eq_true_eq,
    Bool.or_eq_false_iff, Bool.and_eq_false_iff, decide_eq_false_iff_not] at *
  omega

theorem dhtLtB_trans {a b c : DHT} (h1 : dhtLtB a b = true) (h2 : dhtLtB b c = true) :
    dhtLtB a c = true := by
  simp only [dhtLtB, Bool.or_eq_true, Bool.and_eq_true, decide_eq_true_eq] at *
  omega

theorem dhtLtB_or_eq_of_not {a b : DHT} (h : dhtLtB a b = false) :
    a = b ∨ dhtLtB b a = true := by
  simp only [dhtLtB, Bool.or_eq_false_iff, Bool.and_eq_false_iff,
    Bool.or_eq_true, Bool.and_eq_true, decide_eq_true_eq,
    decide_eq_false_iff_not] at *
  rcases a with ⟨a1, a2⟩
  rcases b with ⟨b1, b2⟩
  simp only [Prod.mk.injEq]
  omega

theorem obLt_trans_dht {lb : Option DHT} {a b : DHT} (h1 : obLt lb a = true)
    (h2 : dhtLtB a b = true) : obLt lb b = true := by
  cases lb with
  | none => rfl
  | some l => exact dhtLtB_trans h1 h2

/-! ## `latestAt` lemmas -/

theorem mem_candidates {s : Store} {p : List PrimitiveValue} {rt : Nat}
    {lb : Option DHT} {e : DocEntry} :
    e ∈ candidates s p rt lb ↔
      e ∈ s ∧ e.subkeys = p ∧ e.dht.1 ≤ rt ∧ obLt lb e.dht = true := by
  simp [candidates, List.mem_filter, and_assoc]

theorem foldl_pickLatest_eq_some {l : List DocEntry} {acc : Option DocEntry}
    {e : DocEntry} (h : l.foldl pickLatest acc = some e) :
    acc = some e ∨ e ∈ l := by
  induction l generalizing acc with
  | nil => exact Or.inl h
  | cons x l ih =>
    rcases ih h with h' | h'
    · unfold pickLatest at h'
      cases acc with
      | none => cases h'; exact Or.inr (List.mem_cons_self _ _)
      | some a =>
        by_cases hlt : dhtLtB a.dht x.dht = true
        · simp [hlt] at h'; cases h'; exact Or.inr (List.mem_cons_self _ _)
        · simp [hlt] at h'; exact Or.inl (by rw [h'])
    · exact Or.inr (List.mem_cons_of_mem _ h')

theorem foldl_pickLatest_some_of_acc (l : List DocEntry) (a : DocEntry) :
    ∃ e, l.foldl pickLatest (some a) = some e := by
  induction l generalizing a with
  | nil => exact ⟨a, rfl⟩
  | cons x l ih =>
    show ∃ e, l.foldl pickLatest (pickLatest (some a) x) = some e
    unfold pickLatest
    by_cases hlt : dhtLtB a.dht x.dht = true
    · simpa [hlt] using ih x
    · simpa [hlt] using ih a

theorem latestAt_mem {s : Store} {p : List PrimitiveValue} {rt : Nat}
    {lb : Option DHT} {e : DocEntry} (h : latestAt s p rt lb = some e) :
    e ∈ candidates s p rt lb := by
  rcases foldl_pickLatest_eq_some h with h' | h'
  · cases h'
  · exact h'

theorem latestAt_isSome_of_mem {s : Store} {p : List PrimitiveValue} {rt : Nat}
    {lb : Option DHT} {e : DocEntry} (h : e ∈ candidates s p rt lb) :
    ∃ e', latestAt s p rt lb = some e' := by
  unfold latestAt
  rcases hc : candidates s p rt lb with _ | ⟨x, l⟩
  · rw [hc] at h; cases h
  · exact foldl_pickLatest_some_of_acc l x

theorem latestAt_eq_none {s : Store} {p : List PrimitiveValue} {rt : Nat}
    {lb : Option DHT}
    (h : ∀ e ∈ s, ¬(e.subkeys = p ∧ e.dht.1 ≤ rt ∧ obLt lb e.dht = true)) :
    latestAt s p rt lb = none := by
  have hc : candidates s p rt lb = [] := by
    unfold candidates
    rw [List.filter_eq_nil_iff]
    intro e he
    have := h e he
    simp only [Bool.and_eq_true, decide_eq_true_eq, not_and] at *
    tauto
  unfold latestAt
  rw [hc]
  rfl

/-- The fold returns the strict maximum when there is one. -/
theorem foldl_pickLatest_eq_max {l : List DocEntry} {m : DocEntry}
    (acc : Option DocEntry)
    (hmem : m ∈ l ∨ acc = some m)
    (hmax : ∀ c ∈ l, c = m ∨ dhtLtB c.dht m.dht = true)
    (hacc : ∀ a, acc = some a → a = m ∨ dhtLtB a.dht m.dht = true) :
    l.foldl pickLatest acc = some m := by
  induction l generalizing acc with
  | nil =>
    rcases hmem with h | h
    · cases h
    · exact h
  | cons x l ih =>
    show l.foldl pickLatest (pickLatest acc x) = some m
    rcases hmax x (List.mem_cons_self _ _) with hx | hx
    · subst hx
      have hpick : pickLatest acc x = some x := by
        unfold pickLatest
        cases acc with
        | none => rfl
        | some a =>
          rcases hacc a rfl with ha | ha
          · subst ha; simp [dhtLtB_irrefl]
          · simp [ha]
      rw [hpick]
      exact ih (some x) (Or.inr rfl) (fun c hc => hmax c (List.mem_cons_of_mem _ hc))
        (fun a ha => by cases ha; exact Or.inl rfl)
    · have hstep : ∀ a, pickLatest acc x = some a →
          a = m ∨ dhtLtB a.dht m.dht = true := by
        intro a ha
        unfold pickLatest at ha
        cases acc with
        | none => cases ha; exact Or.inr hx
        | some a0 =>
          by_cases hlt : dhtLtB a0.dht x.dht = true
          · simp [hlt] at ha; subst ha; exact Or.inr hx
          · simp [hlt] at ha; subst ha; exact hacc a0 rfl
      have hmem' : m ∈ l ∨ pickLatest acc x = some m := by
        rcases hmem with h | h
        · rcases List.mem_cons.mp h with h' | h'
          · exfalso; subst h'; simp [dhtLtB_irrefl] at hx
          · exact Or.inl h'
        · right
          unfold pickLatest
          rw [h]
          have : dhtLtB m.dht x.dht = false := dhtLtB_asymm hx
          simp [this]
      exact ih _ hmem' (fun c hc => hmax c (List.mem_cons_of_mem _ hc)) hstep

theorem latestAt_eq_max {s : Store} {p : List PrimitiveValue} {rt : Nat}
    {lb : Option DHT} {m : DocEntry}
    (hmem : m ∈ candidates s p rt lb)
    (hmax : ∀ c ∈ candidates s p rt lb, c = m ∨ dhtLtB c.dht m.dht = true) :
    latestAt s p rt lb = some m :=
  foldl_pickLatest_eq_max none (Or.inl hmem) hmax (by intro a h; cases h)

/-! ## Shadow-bound walk lemmas -/

theorem lbWalk_eq_of_no_prefix_entries {s : Store} {rt : Nat} :
    ∀ (rest q : List PrimitiveValue) (lb : Option DHT),
      (∀ e ∈ s, ∀ i, i < rest.length → e.subkeys ≠ q ++ rest.take i) →
      lbWalk s rt q rest lb = lb := by
  intro rest
  induction rest with
  | nil => intro q lb _; rfl
  | cons k rest ih =>
    intro q lb h
    show lbWalk s rt (q ++ [k]) rest (bump lb (latestAt s q rt lb)) = lb
    have hnone : latestAt s q rt lb = none := by
      apply latestAt_eq_none
      intro e he hcl
      exact h e he 0 (Nat.succ_pos _) (by simpa using hcl.1)
    rw [hnone]
    show lbWalk s rt (q ++ [k]) rest lb = lb
    apply ih
    intro e he i hi
    have := h e he (i + 1) (by simpa using hi)
    simpa [List.append_assoc] using this

theorem lbAt_eq_none {s : Store} {rt : Nat} {p : List PrimitiveValue}
    (h : ∀ e ∈ s, ∀ i, i < p.length → e.subkeys ≠ p.take i) :
    lbAt s rt p = none := by
  unfold lbAt
  exact lbWalk_eq_of_no_prefix_entries p [] none (by simpa using h)

/-- A path of the wrong length is never one of its own strict prefixes. -/
theorem take_ne_of_lt {α : Type _} {p : List α} {i : Nat} (h : i < p.length) :
    p.take i ≠ p := by
  intro hcontra
  have := congrArg List.length hcontra
  simp [List.length_take] at this
  omega

/-! ## Writes at a strictly newer time are invisible to older reads -/

theorem candidates_append_future {s extra : Store} {p : List PrimitiveValue}
    {rt : Nat} {lb : Option DHT} (h : ∀ e ∈ extra, rt < e.dht.1) :
    candidates (s ++ extra) p rt lb = candidates s p rt lb := by
  unfold candidates
  rw [List.filter_append]
  have : extra.filter (fun e =>
      e.subkeys = p && e.dht.1 ≤ rt && obLt lb e.dht) = [] := by
    rw [List.filter_eq_nil_iff]
    intro e he
    have := h e he
    simp only [Bool.and_eq_true, decide_eq_true_eq, not_and]
    intro _ h2
    omega
  rw [this, List.append_nil]

theorem latestAt_append_future {s extra : Store} {p : List PrimitiveValue}
    {rt : Nat} {lb : Option DHT} (h : ∀ e ∈ extra, rt < e.dht.1) :
    latestAt (s ++ extra) p rt lb = latestAt s p rt lb := by
  unfold latestAt
  rw [candidates_append_future h]

theorem lbWalk_append_future {s extra : Store} {rt : Nat}
    (h : ∀ e ∈ extra, rt < e.dht.1) :
    ∀ (rest q : List PrimitiveValue) (lb : Option DHT),
      lbWalk (s ++ extra) rt q rest lb = lbWalk s rt q rest lb := by
  intro rest
  induction rest with
  | nil => intro q lb; rfl
  | cons k rest ih =>
    intro q lb
    show lbWalk (s ++ extra) rt (q ++ [k]) rest
        (bump lb (latestAt (s ++ extra) q rt lb)) = _
    rw [latestAt_append_future h]
    exact ih (q ++ [k]) (bump lb (latestAt s q rt lb))

theorem lbAt_append_future {s extra : Store} {rt : Nat} {p : List PrimitiveValue}
    (h : ∀ e ∈ extra, rt < e.dht.1) :
    lbAt (s ++ extra) rt p = lbAt s rt p :=
  lbWalk_append_future h p [] none

theorem liveValueAt_append_future {s extra : Store} {rt : Nat}
    {p : List PrimitiveValue} (h : ∀ e ∈ extra, rt < e.dht.1) :
    liveValueAt (s ++ extra) rt p = liveValueAt s rt p := by
  unfold liveValueAt entryAt
  rw [lbAt_append_future h, latestAt_append_future h]

/-- If some path at or below `p` has a live value, the subdocument at `p`
is found. -/
theorem subDocPresent_of_live {s : Store} {rt : Nat} {p q : List PrimitiveValue}
    (hpq : p.isPrefixOf q = true) (h : (liveValueAt s rt q).isSome = true) :
    subDocPresent s rt p = true := by
  unfold liveValueAt at h
  rcases he : entryAt s rt q with _ | e
  · rw [he] at h; simp at h
  · rw [he] at h
    have hmem := latestAt_mem he
    rw [mem_candidates] at hmem
    unfold subDocPresent
    rw [List.any_eq_true]
    refine ⟨e, hmem.1, ?_⟩
    rw [hmem.2.1]
    simp only [hpq, Bool.true_and]
    unfold liveValueAt
    rw [he]
    exact h

theorem subDocPresent_append_future {s extra : Store} {rt : Nat}
    {p : List PrimitiveValue} (h : ∀ e ∈ extra, rt < e.dht.1) :
    subDocPresent (s ++ extra) rt p = subDocPresent s rt p := by
  rcases hb : subDocPresent s rt p with _ | _
  · rcases hb' : subDocPresent (s ++ extra) rt p with _ | _
    · rfl
    · exfalso
      unfold subDocPresent at hb'
      rw [List.any_eq_true] at hb'
      rcases hb' with ⟨e, hmem, hcond⟩
      rw [Bool.and_eq_true] at hcond
      have hlive : (liveValueAt s rt e.subkeys).isSome = true := by
        rw [← liveValueAt_append_future h]
        exact hcond.2
      have := subDocPresent_of_live hcond.1 hlive
      rw [hb] at this
      cases this
  · unfold subDocPresent at hb ⊢
    rw [List.any_eq_true] at hb
    rcases hb with ⟨e, hmem, hcond⟩
    rw [List.any_eq_true]
    refine ⟨e, List.mem_append_left _ hmem, ?_⟩
    rw [Bool.and_eq_true] at hcond ⊢
    exact ⟨hcond.1, by rw [liveValueAt_append_future h]; exact hcond.2⟩

/-! ## Write-path helper lemmas -/

theorem latestPhysAt_mem {s : Store} {q : List PrimitiveValue} {e : DocEntry}
    (h : latestPhysAt s q = some e) : e ∈ s ∧ e.subkeys = q := by
  unfold latestPhysAt at h
  rcases foldl_pickLatest_eq_some h with h' | h'
  · cases h'
  · rw [List.mem_filter] at h'
    exact ⟨h'.1, by simpa using h'.2⟩

theorem utsAllowed_of_no_uts {s : Store} {t : Nat} {path : List PrimitiveValue}
    (hu : ∀ e ∈ s, e.uts = none) : utsAllowed s t path none = true := by
  unfold utsAllowed
  rw [List.all_eq_true]
  intro q _
  rcases hq : latestPhysAt s q with _ | e
  · rfl
  · have he := (latestPhysAt_mem hq).1
    simp [hu e he]

theorem foldl_max_le_mem {α : Type _} (f : α → Nat) {l : List α} {x : α}
    (h : x ∈ l) : ∀ acc, f x ≤ l.foldl (fun m y => max m (f y)) acc := by
  induction l with
  | nil => cases h
  | cons y l ih =>
    intro acc
    rcases List.mem_cons.mp h with h' | h'
    · subst h'
      have : ∀ (l' : List α) (a : Nat), a ≤ l'.foldl (fun m y => max m (f y)) a := by
        intro l'
        induction l' with
        | nil => intro a; exact Nat.le_refl a
        | cons z l' ih' =>
          intro a
          exact Nat.le_trans (Nat.le_max_left a (f z)) (ih' (max a (f z)))
      exact Nat.le_trans (Nat.le_max_right acc (f x)) (this l _)
    · exact ih h' _

theorem idx_le_watermark {s : Store} {e : DocEntry} {i : Int}
    (he : e ∈ s) (hi : PrimitiveValue.kArrayIndex i ∈ e.subkeys) :
    i.natAbs ≤ watermark s := by
  have h1 : idxAbs (.kArrayIndex i) ≤ maxAbsIdxOf e.subkeys :=
    foldl_max_le_mem idxAbs hi 0
  have h2 : maxAbsIdxOf e.subkeys ≤ watermark s :=
    foldl_max_le_mem (fun e => maxAbsIdxOf e.subkeys) he 0
  exact Nat.le_trans h1 h2

/-! ## Claim theorems -/

/-- C10: `SetPrimitive` of a `Value` that carries an explicit user
timestamp fails (non-OK status) when the batch's init-marker mode is
`required`; in `optional` init-marker mode `SetPrimitive` never returns an
error.  (The restriction is pinned by the `ASSERT_NOK` under
`SetInitMarkerBehavior(kRequired)` at the start of
`DocDBTest.TestUserTimestamp`; the implementation itself is absent from
the snapshot, so the check is part of the spec-modelled write path.) -/
theorem C10_user_timestamp_requires_optional_mode (s : Store) (t : Nat)
    (path : List PrimitiveValue) (v : PrimitiveValue) (ttl : Option Nat) (u : Int) :
    (∃ msg, setPrimitivePuts .required s t path { v := v, ttl := ttl, uts := some u } =
      .error msg) ∧
    (∀ val : WriteValue, ∃ puts, setPrimitivePuts .optional s t path val = .ok puts) := by
  constructor
  · refine ⟨"user timestamps require optional init markers", ?_⟩
    unfold setPrimitivePuts
    simp
  · intro val
    unfold setPrimitivePuts
    simp only []
    have hmode : ((InitMarkerBehavior.optional = InitMarkerBehavior.required : Bool) &&
        val.uts.isSome) = false := by
      simp
    rw [if_neg (by simp)]
    by_cases hallow : utsAllowed s t path val.uts = true
    · rw [if_neg (by simp [hallow])]
      by_cases hdel : val.v = .kTombstone
      · rw [if_pos hdel]
        exact ⟨_, rfl⟩
      · rw [if_neg hdel]
        exact ⟨_, rfl⟩
    · rw [if_pos (by simpa using hallow)]
      exact ⟨[], rfl⟩

/-- C7 (counterexample to the claim as stated): with the `required`
init-marker policy, `DeleteSubDoc` of a path that does not currently
resolve writes nothing at all — no tombstone.  This mirrors
`DocDBTest.BasicTest`, where `TestDeletion` of the non-existent
`"subkey_x"` asserts an empty write batch. -/
theorem C7_counterexample :
    deleteSubDocPuts .required
      [{ subkeys := [], dht := (2000, 0), value := .kObject }] 4000
      [.kString [120]] = .ok [] := by
  rfl

/-- C7 (amended): `DeleteSubDoc(path)` writes exactly one tombstone put at
`path` whenever init markers are `optional`, or whenever the path
currently resolves to a present subdocument under the `required` policy
(and no user timestamps are involved); with `required` markers and an
absent path it writes nothing. -/
theorem C7_deleteSubDoc_writes_tombstone (mode : InitMarkerBehavior) (s : Store)
    (t : Nat) (path : List PrimitiveValue)
    (hu : ∀ e ∈ s, e.uts = none)
    (hres : mode = .optional ∨ subDocPresent s t path = true) :
    deleteSubDocPuts mode s t path =
      .ok [{ subkeys := path, val := { v := .kTombstone } }] := by
  have hallow := @utsAllowed_of_no_uts s t path hu
  unfold deleteSubDocPuts setPrimitivePuts
  cases mode with
  | optional =>
    rw [if_neg (by simp), if_neg (by simp [hallow]), if_pos rfl]
  | required =>
    rw [if_neg (by simp), if_neg (by simp [hallow]), if_pos rfl]
    rcases hres with h | h
    · cases h
    · rw [if_pos h]

/-- Witness for C7: concrete application — deleting the present path
`["subkey_a"]` of a two-entry store in `required` mode emits exactly the
tombstone put. -/
theorem C7_witness :
    deleteSubDocPuts .required
      [{ subkeys := [], dht := (2000, 0), value := .kObject },
       { subkeys := [.kString [97]], dht := (2000, 1), value := .kString [118] }]
      4000 [.kString [97]] =
      .ok [{ subkeys := [.kString [97]], val := { v := .kTombstone } }] := by
  exact C7_deleteSubDoc_writes_tombstone .required _ 4000 _
    (by
      intro e he
      rcases List.mem_cons.mp he with h | h
      · rw [h]
      · rcases List.mem_cons.mp h with h' | h'
        · rw [h']
        · cases h')
    (Or.inr (by rfl))

theorem lbAt_singleton_none {e : DocEntry} {path : List PrimitiveValue}
    (he : e.subkeys = path) (rt : Nat) : lbAt [e] rt path = none := by
  apply lbAt_eq_none
  intro e' he' i hi
  have : e' = e := by
    rcases List.mem_cons.mp he' with h | h
    · exact h
    · cases h
  rw [this, he]
  intro hc
  exact take_ne_of_lt hi hc.symm

theorem entryAt_singleton {e : DocEntry} {path : List PrimitiveValue}
    (he : e.subkeys = path) (rt : Nat) :
    entryAt [e] rt path = if e.dht.1 ≤ rt then some e else none := by
  unfold entryAt
  rw [lbAt_singleton_none he]
  unfold latestAt candidates
  by_cases hrt : e.dht.1 ≤ rt
  · rw [if_pos hrt]
    simp [List.filter, he, hrt, obLt, List.foldl, pickLatest]
  · rw [if_neg hrt]
    simp [List.filter, he, hrt]

theorem subDocPresent_singleton {e : DocEntry} {path : List PrimitiveValue}
    (he : e.subkeys = path) (rt : Nat) :
    subDocPresent [e] rt path = (liveValueAt [e] rt path).isSome := by
  unfold subDocPresent
  have hpre : path.isPrefixOf e.subkeys = true := by
    rw [he]
    exact List.isPrefixOf_iff_prefix.mpr (List.prefix_refl _)
  simp [List.any, hpre, he]

theorem fullCompact_singleton {e : DocEntry} (c : Nat)
    (hv : e.value ≠ .kTombstone) :
    fullCompact [e] c = if isExpired e c then [] else [e] := by
  unfold fullCompact viewSuperseded deadAtCutoff
  have h1 : dhtLtB e.dht e.dht = false := dhtLtB_irrefl _
  by_cases hex : isExpired e c
  · rw [if_pos hex]
    simp [List.filter, List.any, h1, hv, hex]
  · rw [if_neg hex]
    simp [List.filter, List.any, h1, hv, hex]

/-- C4 (counterexample to the claim as stated): the expiry comparison of
the code is strict.  A value written at hybrid time 1000 with ttl 500 is
still returned by the reader at read time exactly `t + d = 1500` (the
claim demands absence at every `t' ≥ t+d`), and a full compaction with
history cutoff exactly `t + d` does not remove it (the claim demands
removal at every cutoff `≥ t+d`).  The compaction half is pinned by
`DocDBTest.TTLCompactionTest`: after `FullyCompactHistoryBefore(t2)` the
entry `ColumnId(0) -> "v1"; ttl: 0.002s` written at `t0 = t2 - 2ms`
remains in the expected dump. -/
theorem C4_counterexample :
    liveValueAt [{ subkeys := [.kString [115]], dht := (1000, 0), value := .kString [118], ttl := some 500 }] 1500 [.kString [115]] =
      some (.kString [118]) ∧
    subDocPresent [{ subkeys := [.kString [115]], dht := (1000, 0), value := .kString [118], ttl := some 500 }] 1500 [.kString [115]] = true ∧
    fullCompact [{ subkeys := [.kString [115]], dht := (1000, 0), value := .kString [118], ttl := some 500 }] 1500 =
      [{ subkeys := [.kString [115]], dht := (1000, 0), value := .kString [118], ttl := some 500 }] := by
  refine ⟨by decide, by decide, by decide⟩

/-- C4 (amended): a value written with per-value ttl `d` at hybrid time `t`
is returned by the Document Reader at every read time `t ≤ t' ≤ t + d` and
treated as absent at every `t' > t + d`; a full compaction with history
cutoff `> t + d` physically removes the expired entry, one with cutoff
`≤ t + d` keeps it, and an entry carrying the no-expiration sentinel TTL
(`kMaxTtl`) is never removed by expiry. -/
theorem C4_ttl_expiration (path : List PrimitiveValue) (v : PrimitiveValue)
    (t d : Nat) (hv : v ≠ .kTombstone) :
    (∀ rt, t ≤ rt → rt ≤ t + d →
      liveValueAt [{ subkeys := path, dht := (t, 0), value := v, ttl := some d }] rt path =
        some v ∧
      subDocPresent [{ subkeys := path, dht := (t, 0), value := v, ttl := some d }] rt path =
        true) ∧
    (∀ rt, t + d < rt →
      liveValueAt [{ subkeys := path, dht := (t, 0), value := v, ttl := some d }] rt path =
        none ∧
      subDocPresent [{ subkeys := path, dht := (t, 0), value := v, ttl := some d }] rt path =
        false) ∧
    (∀ c, t + d < c →
      fullCompact [{ subkeys := path, dht := (t, 0), value := v, ttl := some d }] c = []) ∧
    (∀ c, c ≤ t + d →
      fullCompact [{ subkeys := path, dht := (t, 0), value := v, ttl := some d }] c =
        [{ subkeys := path, dht := (t, 0), value := v, ttl := some d }]) ∧
    (∀ c, fullCompact [{ subkeys := path, dht := (t, 0), value := v, ttl := none }] c =
        [{ subkeys := path, dht := (t, 0), value := v, ttl := none }]) := by
  refine ⟨?_, ?_, ?_, ?_, ?_⟩
  · intro rt h1 h2
    have hlv : liveValueAt [{ subkeys := path, dht := (t, 0), value := v, ttl := some d }] rt path = some v := by
      unfold liveValueAt
      rw [entryAt_singleton rfl]
      rw [if_pos (by simpa using h1)]
      have hex : isExpired { subkeys := path, dht := (t, 0), value := v, ttl := some d } rt = false := by
        simp only [isExpired, decide_eq_false_iff_not]
        omega
      simp [hv, hex]
    refine ⟨hlv, ?_⟩
    rw [subDocPresent_singleton rfl, hlv]
    rfl
  · intro rt h1
    have hlv : liveValueAt [{ subkeys := path, dht := (t, 0), value := v, ttl := some d }] rt path = none := by
      unfold liveValueAt
      rw [entryAt_singleton rfl]
      rw [if_pos (by simp; omega)]
      have hex : isExpired { subkeys := path, dht := (t, 0), value := v, ttl := some d } rt = true := by
        simp only [isExpired, decide_eq_true_eq]
        omega
      simp [hex]
    refine ⟨hlv, ?_⟩
    rw [subDocPresent_singleton rfl, hlv]
    rfl
  · intro c hc
    rw [fullCompact_singleton c hv]
    rw [if_pos (by simp only [isExpired, decide_eq_true_eq]; omega)]
  · intro c hc
    rw [fullCompact_singleton c hv]
    rw [if_neg (by simp only [isExpired, decide_eq_true_eq]; omega)]
  · intro c
    rw [fullCompact_singleton c hv]
    rfl

/-- Witness for C4: the amended theorem applied at `path = ["s"]`,
`v = "v"`, `t = 1000`, `d = 500`, evaluated at read times 1200 and 1501
and cutoffs 1501 and 1500. -/
theorem C4_witness :
    liveValueAt [{ subkeys := [.kString [115]], dht := (1000, 0), value := .kString [118], ttl := some 500 }] 1200 [.kString [115]] =
      some (.kString [118]) ∧
    liveValueAt [{ subkeys := [.kString [115]], dht := (1000, 0), value := .kString [118], ttl := some 500 }] 1501 [.kString [115]] = none ∧
    fullCompact [{ subkeys := [.kString [115]], dht := (1000, 0), value := .kString [118], ttl := some 500 }] 1501 = [] ∧
    fullCompact [{ subkeys := [.kString [115]], dht := (1000, 0), value := .kString [118], ttl := some 500 }] 1500 =
      [{ subkeys := [.kString [115]], dht := (1000, 0), value := .kString [118], ttl := some 500 }] := by
  have h := C4_ttl_expiration [.kString [115]] (.kString [118]) 1000 500 (by decide)
  exact ⟨(h.1 1200 (by decide) (by decide)).1, (h.2.1 1501 (by decide)).1,
    h.2.2.1 1501 (by decide), h.2.2.2.1 1500 (by decide)⟩

theorem enumFrom_get? {α : Type _} (l : List α) :
    ∀ (n j : Nat), (l.enumFrom n).get? j = (l.get? j).map fun v => (n + j, v) := by
  induction l with
  | nil => intro n j; cases j <;> rfl
  | cons x l ih =>
    intro n j
    cases j with
    | zero => rfl
    | succ j =>
      show (l.enumFrom (n + 1)).get? j = (l.get? j).map fun v => (n + (j + 1), v)
      rw [ih (n + 1) j]
      have : ∀ v : α, (n + 1 + j, v) = (n + (j + 1), v) := by
        intro v
        have harith : n + 1 + j = n + (j + 1) := by omega
        rw [harith]
      cases l.get? j with
      | none => rfl
      | some v => simp [this v]

theorem enum_get? {α : Type _} (l : List α) (j : Nat) :
    l.enum.get? j = (l.get? j).map fun v => (j, v) := by
  have h := enumFrom_get? l 0 j
  simpa using h

theorem sortAsc_sorted (l : List Int) : List.Sorted (· ≤ ·) (sortAsc l) :=
  List.sorted_insertionSort _ l

/-- C8 (counterexample to the claim as stated): `ReplaceInList` does not
address elements by 0-based logical position.  In a list whose live
ascending-index enumeration is `[1, 2, 9]`, position `2` rewrites
`ArrayIndex(2)` — the *second* element — not `ArrayIndex(9)`, the third,
which a 0-based convention would require.  This is exactly the behaviour
pinned by `DocDBTest.ListInsertAndGetTest`: with enumeration
`[-8, -7, 1, 2, 9, 10]`, `ReplaceInList` at positions `{2, 4}` rewrites
`ArrayIndex(-7)` and `ArrayIndex(2)`, the second and fourth elements. -/
theorem C8_counterexample :
    listIndicesAsc
      [{ subkeys := [.kString [108], .kArrayIndex 1], dht := (100, 0), value := .kInt64 10 },
       { subkeys := [.kString [108], .kArrayIndex 2], dht := (100, 1), value := .kInt64 2 },
       { subkeys := [.kString [108], .kArrayIndex 9], dht := (100, 2), value := .kInt64 7 }]
      500 [.kString [108]] = [1, 2, 9] ∧
    replaceInListPuts
      [{ subkeys := [.kString [108], .kArrayIndex 1], dht := (100, 0), value := .kInt64 10 },
       { subkeys := [.kString [108], .kArrayIndex 2], dht := (100, 1), value := .kInt64 2 },
       { subkeys := [.kString [108], .kArrayIndex 9], dht := (100, 2), value := .kInt64 7 }]
      [.kString [108]] [2] [.kInt64 17] 500 =
      [{ subkeys := [.kString [108], .kArrayIndex 2], val := { v := .kInt64 17 } }] := by
  refine ⟨by decide, by decide⟩

/-- C8 (amended): `ExtendList(APPEND)` assigns the `j`-th supplied element
the fresh index `watermark + 1 + j` — strictly greater than every
list-element index present anywhere in the store (in particular at the
target path) and increasing in arrival order; `ExtendList(PREPEND)`
assigns the `j`-th element index `-(watermark + (k - j))` — strictly less
than every existing index and again increasing in arrival order;
`ReplaceInList` addresses elements by **1-based** logical position in the
ascending-index enumeration of the live list elements as observed at the
given read hybrid time (the claim's 0-based convention is off by one),
with out-of-range positions ignored. -/
theorem C8_list_operations (s : Store) (path : List PrimitiveValue)
    (elems : List PrimitiveValue) (rt : Nat) :
    (∀ (j : Nat) (v : PrimitiveValue), elems.get? j = some v →
      (extendListPuts s path elems .append).get? j =
        some { subkeys := path ++ [.kArrayIndex ((watermark s : Int) + 1 + j)],
               val := { v := v } }) ∧
    (∀ (i : Int) (e : DocEntry), e ∈ s → PrimitiveValue.kArrayIndex i ∈ e.subkeys →
      i < (watermark s : Int) + 1) ∧
    (∀ (j : Nat) (v : PrimitiveValue), elems.get? j = some v →
      { subkeys := path ++
          [.kArrayIndex (-((watermark s : Int) + ((elems.length - j : Nat) : Int)))],
        val := { v := v, ttl := none, uts := none } } ∈
        extendListPuts s path elems .prepend) ∧
    (∀ (i : Int) (e : DocEntry), e ∈ s → PrimitiveValue.kArrayIndex i ∈ e.subkeys →
      ∀ j, j < elems.length →
        -((watermark s : Int) + ((elems.length - j : Nat) : Int)) < i) ∧
    List.Sorted (· ≤ ·) (listIndicesAsc s rt path) ∧
    (∀ (i : Nat) (v : PrimitiveValue) (idx : Int), 1 ≤ i →
      (listIndicesAsc s rt path).get? (i - 1) = some idx →
      replaceInListPuts s path [i] [v] rt =
        [{ subkeys := path ++ [.kArrayIndex idx], val := { v := v } }]) ∧
    (∀ (i : Nat) (v : PrimitiveValue), (listIndicesAsc s rt path).length ≤ i - 1 →
      replaceInListPuts s path [i] [v] rt = []) := by
  refine ⟨?_, ?_, ?_, ?_, sortAsc_sorted _, ?_, ?_⟩
  · intro j v hj
    show (List.map _ (List.enum elems)).get? j = _
    rw [List.get?_map, enum_get?, hj]
    rfl
  · intro i e he hi
    have h1 := idx_le_watermark he hi
    have h2 : i ≤ (i.natAbs : Int) := Int.le_natAbs
    have h3 : (i.natAbs : Int) ≤ (watermark s : Int) := by exact_mod_cast h1
    omega
  · intro j v hj
    rcases List.get?_eq_some.mp hj with ⟨hjlen, _⟩
    have hrlen : elems.length - 1 - j < elems.length := by omega
    have hrev : elems.reverse.get? (elems.length - 1 - j) = some v := by
      rw [List.get?_eq_getElem?, List.getElem?_reverse hrlen]
      have harg : elems.length - 1 - (elems.length - 1 - j) = j := by omega
      rw [harg, ← List.get?_eq_getElem?]
      exact hj
    have hput : (extendListPuts s path elems .prepend).get? (elems.length - 1 - j) =
        some { subkeys := path ++ [.kArrayIndex (-((watermark s : Int) + 1 + ((elems.length - 1 - j : Nat) : Int)))], val := { v := v, ttl := none, uts := none } } := by
      show (List.map _ (List.enum elems.reverse)).get? (elems.length - 1 - j) = _
      rw [List.get?_map, enum_get?, hrev]
      rfl
    have harith : -((watermark s : Int) + ((elems.length - j : Nat) : Int)) =
        -((watermark s : Int) + 1 + ((elems.length - 1 - j : Nat) : Int)) := by
      have h1 : ((elems.length - j : Nat) : Int) =
          1 + ((elems.length - 1 - j : Nat) : Int) := by omega
      rw [h1]
      ring
    rw [harith]
    exact List.get?_mem hput
  · intro i e he hi j hjlen
    have h1 := idx_le_watermark he hi
    have h3 : (i.natAbs : Int) ≤ (watermark s : Int) := by exact_mod_cast h1
    have h4 : (1 : Int) ≤ ((elems.length - j : Nat) : Int) := by
      have : 1 ≤ elems.length - j := by omega
      exact_mod_cast this
    omega
  · intro i v idx h1 hidx
    unfold replaceInListPuts
    have hlen : i - 1 < (listIndicesAsc s rt path).length := by
      rcases List.get?_eq_some.mp hidx with ⟨h, _⟩
      exact h
    have hdrop : (listIndicesAsc s rt path).drop (i - 1) =
        idx :: (listIndicesAsc s rt path).drop i := by
      have := List.drop_eq_get_cons hlen
      rcases List.get?_eq_some.mp hidx with ⟨h, hget⟩
      rw [this, hget]
      have : i - 1 + 1 = i := by omega
      rw [this]
    simp only [List.zip, List.zipWith, List.filterMap, hdrop]
    have hne : ¬ (i = 0) := by omega
    simp [hne]
  · intro i v hlen
    unfold replaceInListPuts
    have hdrop : (listIndicesAsc s rt path).drop (i - 1) = [] :=
      List.drop_eq_nil_of_le hlen
    simp [List.zip, List.zipWith, List.filterMap, hdrop]

/-- Witness for C8: the amended theorem applied to a store holding live
list elements at indices 1, 2, 9 (watermark 9): appending `[5, 6]`
allocates indices 10 and 11 in arrival order, prepending allocates -11 and
-10, the existing index 2 is below every fresh append index, 1-based
position 2 rewrites `ArrayIndex(2)`, and position 5 is out of range. -/
theorem C8_witness :
    (extendListPuts
      [{ subkeys := [.kString [108], .kArrayIndex 1], dht := (100, 0), value := .kInt64 10 },
       { subkeys := [.kString [108], .kArrayIndex 2], dht := (100, 1), value := .kInt64 2 },
       { subkeys := [.kString [108], .kArrayIndex 9], dht := (100, 2), value := .kInt64 7 }]
      [.kString [108]] [.kInt64 5, .kInt64 6] .append).get? 1 =
      some { subkeys := [.kString [108], .kArrayIndex 11], val := { v := .kInt64 6 } } ∧
    { subkeys := [.kString [108], .kArrayIndex (-11)],
      val := { v := .kInt64 5, ttl := none, uts := none } } ∈
      extendListPuts
        [{ subkeys := [.kString [108], .kArrayIndex 1], dht := (100, 0), value := .kInt64 10 },
         { subkeys := [.kString [108], .kArrayIndex 2], dht := (100, 1), value := .kInt64 2 },
         { subkeys := [.kString [108], .kArrayIndex 9], dht := (100, 2), value := .kInt64 7 }]
        [.kString [108]] [.kInt64 5, .kInt64 6] .prepend ∧
    replaceInListPuts
      [{ subkeys := [.kString [108], .kArrayIndex 1], dht := (100, 0), value := .kInt64 10 },
       { subkeys := [.kString [108], .kArrayIndex 2], dht := (100, 1), value := .kInt64 2 },
       { subkeys := [.kString [108], .kArrayIndex 9], dht := (100, 2), value := .kInt64 7 }]
      [.kString [108]] [2] [.kInt64 17] 500 =
      [{ subkeys := [.kString [108], .kArrayIndex 2], val := { v := .kInt64 17 } }] ∧
    replaceInListPuts
      [{ subkeys := [.kString [108], .kArrayIndex 1], dht := (100, 0), value := .kInt64 10 },
       { subkeys := [.kString [108], .kArrayIndex 2], dht := (100, 1), value := .kInt64 2 },
       { subkeys := [.kString [108], .kArrayIndex 9], dht := (100, 2), value := .kInt64 7 }]
      [.kString [108]] [5] [.kInt64 17] 500 = [] := by
  have h := C8_list_operations
    [{ subkeys := [.kString [108], .kArrayIndex 1], dht := (100, 0), value := .kInt64 10 },
     { subkeys := [.kString [108], .kArrayIndex 2], dht := (100, 1), value := .kInt64 2 },
     { subkeys := [.kString [108], .kArrayIndex 9], dht := (100, 2), value := .kInt64 7 }]
    [.kString [108]] [.kInt64 5, .kInt64 6] 500
  refine ⟨?_, ?_, ?_, ?_⟩
  · rw [h.1 1 (.kInt64 6) rfl]
    decide
  · have hm := h.2.2.1 0 (.kInt64 5) rfl
    revert hm
    decide
  · exact h.2.2.2.2.2.1 2 (.kInt64 17) 2 (by decide) (by decide)
  · exact h.2.2.2.2.2.2 5 (.kInt64 17) (by decide)

/-- The shadow bound at `p` is `none` or the `DocHybridTime` of some store
entry sitting at a strictly shorter (ancestor) path. -/
theorem lbWalk_sources (S : Store) (rt : Nat) (p : List PrimitiveValue) :
    ∀ (rest q : List PrimitiveValue) (lb : Option DHT), q ++ rest = p →
      (lb = none ∨ ∃ e ∈ S, e.subkeys.length < p.length ∧ lb = some e.dht) →
      (lbWalk S rt q rest lb = none ∨
        ∃ e ∈ S, e.subkeys.length < p.length ∧ lbWalk S rt q rest lb = some e.dht) := by
  intro rest
  induction rest with
  | nil => intro q lb _ hlb; exact hlb
  | cons k rest ih =>
    intro q lb hq hlb
    show lbWalk S rt (q ++ [k]) rest (bump lb (latestAt S q rt lb)) = none ∨ _
    apply ih (q ++ [k]) _ (by rw [← hq]; simp)
    rcases hL : latestAt S q rt lb with _ | e
    · exact hlb
    · right
      have hm := latestAt_mem hL
      rw [mem_candidates] at hm
      refine ⟨e, hm.1, ?_, rfl⟩
      have hlen : p.length = q.length + (rest.length + 1) := by
        rw [← hq]
        simp [List.length_append]
      rw [hm.2.1]
      omega

theorem lbAt_sources (S : Store) (rt : Nat) (p : List PrimitiveValue) :
    lbAt S rt p = none ∨
      ∃ e ∈ S, e.subkeys.length < p.length ∧ lbAt S rt p = some e.dht :=
  lbWalk_sources S rt p p [] none rfl (Or.inl rfl)

theorem applyBatch_singleton (s : Store) (t : Nat) (pt : Put) :
    applyBatch s t [pt] =
      s ++ [{ subkeys := pt.subkeys, dht := (t, 0), value := pt.val.v,
              ttl := pt.val.ttl, uts := pt.val.uts }] := rfl

/-- A write newer than everything in the store is the visible value at its
path for every read time at or after the write. -/
theorem liveValueAt_latest_write {s : Store} {path : List PrimitiveValue}
    {v : PrimitiveValue} {t rt : Nat}
    (hold : ∀ e ∈ s, dhtLtB e.dht (t, 0) = true)
    (hv : v ≠ .kTombstone) (hrt : t ≤ rt) :
    liveValueAt (s ++ [{ subkeys := path, dht := (t, 0), value := v }]) rt path =
      some v := by
  set nw : DocEntry := { subkeys := path, dht := (t, 0), value := v } with hnw
  set s' : Store := s ++ [nw] with hs'
  have hmem_cases : ∀ e : DocEntry, e ∈ s' → e ∈ s ∨ e = nw := by
    intro e he
    rcases List.mem_append.mp he with h | h
    · exact Or.inl h
    · right
      rcases List.mem_cons.mp h with h' | h'
      · exact h'
      · cases h'
  have hob : obLt (lbAt s' rt path) (t, 0) = true := by
    rcases lbAt_sources s' rt path with h | ⟨e, he, hlen, heq⟩
    · rw [h]; rfl
    · rw [heq]
      have : e ∈ s := by
        rcases hmem_cases e he with h' | h'
        · exact h'
        · exfalso
          rw [h', hnw] at hlen
          simp at hlen
      exact hold e this
  have hcand : nw ∈ candidates s' path rt (lbAt s' rt path) := by
    rw [mem_candidates]
    exact ⟨List.mem_append_right _ (List.mem_cons_self _ _), rfl, by simpa using hrt, hob⟩
  have hlatest : latestAt s' path rt (lbAt s' rt path) = some nw := by
    apply latestAt_eq_max hcand
    intro c hc
    rw [mem_candidates] at hc
    rcases hmem_cases c hc.1 with h | h
    · exact Or.inr (hold c h)
    · exact Or.inl h
  unfold liveValueAt entryAt
  rw [hlatest]
  have hexp : isExpired nw rt = false := rfl
  simp [hnw, hv, hexp]

/-- C1: after `SetPrimitive(path, v, t)` on a document state whose every
entry is older than the write (and carries no user timestamp), for a
non-tombstone, non-expiring primitive `v`: `GetSubDocument` at every read
hybrid time `≥ t` returns `v` at `path` with `found = true`, while at
every read hybrid time `< t` the write is invisible (every path reads
exactly as before the write); and the concrete scenario of the spec: the
object `{"a":{"1":"1","2":"2"}}` inserted at hybrid time 1000 yields
`found = false` at read time 999 and the full object (live `{}` marker at
the root, `"1"` at `a.1`, `"2"` at `a.2`) at read time 1001. -/
theorem C1_write_read_consistency (s : Store) (path : List PrimitiveValue)
    (v : PrimitiveValue) (t : Nat)
    (hold : ∀ e ∈ s, dhtLtB e.dht (t, 0) = true)
    (hu : ∀ e ∈ s, e.uts = none)
    (hv : v ≠ .kTombstone) :
    (setPrimitivePuts .optional s t path { v := v } =
      .ok [{ subkeys := path, val := { v := v } }]) ∧
    (∀ rt, t ≤ rt →
      liveValueAt (applyBatch s t [{ subkeys := path, val := { v := v } }]) rt path =
        some v ∧
      subDocPresent (applyBatch s t [{ subkeys := path, val := { v := v } }]) rt path =
        true) ∧
    (∀ rt, rt < t → ∀ q,
      liveValueAt (applyBatch s t [{ subkeys := path, val := { v := v } }]) rt q =
        liveValueAt s rt q ∧
      subDocPresent (applyBatch s t [{ subkeys := path, val := { v := v } }]) rt q =
        subDocPresent s rt q) ∧
    (subDocPresent (applyBatch [] 1000 (insertSubDocumentPuts [] .kObject
        [([.kString [97], .kString [49]], .kString [49]),
         ([.kString [97], .kString [50]], .kString [50])])) 999 [] = false ∧
     subDocPresent (applyBatch [] 1000 (insertSubDocumentPuts [] .kObject
        [([.kString [97], .kString [49]], .kString [49]),
         ([.kString [97], .kString [50]], .kString [50])])) 1001 [] = true ∧
     liveValueAt (applyBatch [] 1000 (insertSubDocumentPuts [] .kObject
        [([.kString [97], .kString [49]], .kString [49]),
         ([.kString [97], .kString [50]], .kString [50])])) 1001 [] = some .kObject ∧
     subDocPresent (applyBatch [] 1000 (insertSubDocumentPuts [] .kObject
        [([.kString [97], .kString [49]], .kString [49]),
         ([.kString [97], .kString [50]], .kString [50])])) 1001 [.kString [97]] = true ∧
     liveValueAt (applyBatch [] 1000 (insertSubDocumentPuts [] .kObject
        [([.kString [97], .kString [49]], .kString [49]),
         ([.kString [97], .kString [50]], .kString [50])])) 1001
        [.kString [97], .kString [49]] = some (.kString [49]) ∧
     liveValueAt (applyBatch [] 1000 (insertSubDocumentPuts [] .kObject
        [([.kString [97], .kString [49]], .kString [49]),
         ([.kString [97], .kString [50]], .kString [50])])) 1001
        [.kString [97], .kString [50]] = some (.kString [50])) := by
  have hallow := @utsAllowed_of_no_uts s t path hu
  refine ⟨?_, ?_, ?_, by decide, by decide, by decide, by decide, by decide, by decide⟩
  · unfold setPrimitivePuts
    rw [if_neg (by simp), if_neg (by simp [hallow]), if_neg hv]
    rfl
  · intro rt hrt
    rw [applyBatch_singleton]
    have hlv := @liveValueAt_latest_write s path v t rt hold hv hrt
    refine ⟨hlv, ?_⟩
    apply @subDocPresent_of_live _ _ _ path
      (List.isPrefixOf_iff_prefix.mpr (List.prefix_refl _))
    rw [hlv]
    rfl
  · intro rt hrt q
    rw [applyBatch_singleton]
    have hfut : ∀ e ∈ [({ subkeys := path, dht := (t, 0), value := v, ttl := none, uts := none } : DocEntry)], rt < e.dht.1 := by
      intro e he
      rcases List.mem_cons.mp he with h | h
      · rw [h]; exact hrt
      · cases h
    exact ⟨liveValueAt_append_future hfut, subDocPresent_append_future hfut⟩

/-- Witness for C1: the theorem applied to the single-entry store holding
`"old"` at `["s"]` at hybrid time 500, writing `"v"` at the same path at
hybrid time 1000: visible (with the new value) at read time 1000, invisible
at read time 999. -/
theorem C1_witness :
    liveValueAt (applyBatch
        [{ subkeys := [.kString [115]], dht := (500, 0), value := .kString [111] }] 1000
        [{ subkeys := [.kString [115]], val := { v := .kString [118] } }]) 1000
        [.kString [115]] = some (.kString [118]) ∧
    liveValueAt (applyBatch
        [{ subkeys := [.kString [115]], dht := (500, 0), value := .kString [111] }] 1000
        [{ subkeys := [.kString [115]], val := { v := .kString [118] } }]) 999
        [.kString [115]] = some (.kString [111]) := by
  have h := C1_write_read_consistency
    [{ subkeys := [.kString [115]], dht := (500, 0), value := .kString [111] }]
    [.kString [115]] (.kString [118]) 1000
    (by
      intro e he
      rcases List.mem_cons.mp he with h' | h'
      · rw [h']; rfl
      · cases h')
    (by
      intro e he
      rcases List.mem_cons.mp he with h' | h'
      · rw [h']
      · cases h')
    (by decide)
  refine ⟨(h.2.1 1000 (by decide)).1, ?_⟩
  rw [(h.2.2.1 999 (by decide) [.kString [115]]).1]
  decide

theorem liveValueAt_nil (rt : Nat) (q : List PrimitiveValue) :
    liveValueAt [] rt q = none := by
  unfold liveValueAt entryAt
  have h : latestAt [] q rt (lbAt [] rt q) = none := by
    apply latestAt_eq_none
    intro e he
    cases he
  rw [h]

theorem subDocPresent_nil (rt : Nat) (q : List PrimitiveValue) :
    subDocPresent [] rt q = false := rfl

/-- C5: within one batch applied at hybrid time `t` to a fresh row,
setting a column and then deleting the whole row leaves the row absent to
`GetSubDocument` at every read time — and a full compaction at any cutoff
at or past `t` erases the row entirely — while deleting the row and then
setting a column leaves the row present with that column, before and after
such a compaction: the later operation in the batch wins because write ids
increase sequentially and order together with the hybrid time. -/
theorem C5_write_id_disambiguation (col v : PrimitiveValue) (t : Nat)
    (hv : v ≠ .kTombstone) :
    (∀ rt, subDocPresent (applyBatch [] t
        [{ subkeys := [col], val := { v := v } },
         { subkeys := [], val := { v := .kTombstone } }]) rt [] = false) ∧
    (∀ c, t ≤ c → fullCompact (applyBatch [] t
        [{ subkeys := [col], val := { v := v } },
         { subkeys := [], val := { v := .kTombstone } }]) c = []) ∧
    (∀ rt, t ≤ rt →
      subDocPresent (applyBatch [] t
        [{ subkeys := [], val := { v := .kTombstone } },
         { subkeys := [col], val := { v := v } }]) rt [] = true ∧
      liveValueAt (applyBatch [] t
        [{ subkeys := [], val := { v := .kTombstone } },
         { subkeys := [col], val := { v := v } }]) rt [col] = some v) ∧
    (∀ c, t ≤ c →
      fullCompact (applyBatch [] t
        [{ subkeys := [], val := { v := .kTombstone } },
         { subkeys := [col], val := { v := v } }]) c =
        [{ subkeys := [col], dht := (t, 1), value := v }] ∧
      ∀ rt, t ≤ rt →
        liveValueAt [({ subkeys := [col], dht := (t, 1), value := v } : DocEntry)] rt [col] =
          some v ∧
        subDocPresent [({ subkeys := [col], dht := (t, 1), value := v } : DocEntry)] rt [] =
          true) := by
  set e1 : DocEntry := { subkeys := [col], dht := (t, 0), value := v } with he1
  set e2 : DocEntry := { subkeys := [], dht := (t, 1), value := .kTombstone } with he2
  set d1 : DocEntry := { subkeys := [], dht := (t, 0), value := .kTombstone } with hd1
  set d2 : DocEntry := { subkeys := [col], dht := (t, 1), value := v } with hd2
  have hs1 : applyBatch [] t
      [{ subkeys := [col], val := { v := v } },
       { subkeys := [], val := { v := .kTombstone } }] = [e1, e2] := rfl
  have hs2 : applyBatch [] t
      [{ subkeys := [], val := { v := .kTombstone } },
       { subkeys := [col], val := { v := v } }] = [d1, d2] := rfl
  have hcolne : ([col] : List PrimitiveValue) ≠ [] := by simp
  have hlt01 : dhtLtB (t, 0) (t, 1) = true := by simp [dhtLtB]
  have hnlt10 : dhtLtB (t, 1) (t, 0) = false := by simp [dhtLtB]
  refine ⟨?_, ?_, ?_, ?_⟩
  · -- set column, then row tombstone: absent at every read time
    intro rt
    rw [hs1]
    by_cases hrt : t ≤ rt
    · have hroot : latestAt [e1, e2] [] rt none = some e2 := by
        apply latestAt_eq_max
        · rw [mem_candidates]
          exact ⟨by simp, rfl, by simpa using hrt, rfl⟩
        · intro x hx
          rw [mem_candidates] at hx
          rcases List.mem_pair.mp hx.1 with h | h
          · exfalso
            rw [h] at hx
            exact hcolne hx.2.1
          · exact Or.inl h
      have hlbcol : lbAt [e1, e2] rt [col] = some (t, 1) := by
        show lbWalk [e1, e2] rt ([] ++ [col]) []
          (bump none (latestAt [e1, e2] [] rt none)) = some (t, 1)
        rw [hroot]
        rfl
      have hcolnone : liveValueAt [e1, e2] rt [col] = none := by
        unfold liveValueAt entryAt
        rw [hlbcol]
        have h : latestAt [e1, e2] [col] rt (some (t, 1)) = none := by
          apply latestAt_eq_none
          intro e he
          rcases List.mem_pair.mp he with h | h
          · rw [h]
            intro hcl
            have := hcl.2.2
            simp [obLt, hnlt10] at this
          · rw [h]
            intro hcl
            exact hcolne hcl.1.symm
        rw [h]
      have hrootnone : liveValueAt [e1, e2] rt [] = none := by
        unfold liveValueAt entryAt
        have hlb : lbAt [e1, e2] rt [] = none := rfl
        rw [hlb, hroot]
        rfl
      unfold subDocPresent
      simp only [List.any_cons, List.any_nil]
      have hc1 : (liveValueAt [e1, e2] rt e1.subkeys).isSome = false := by
        show (liveValueAt [e1, e2] rt [col]).isSome = false
        rw [hcolnone]
        rfl
      have hc2 : (liveValueAt [e1, e2] rt e2.subkeys).isSome = false := by
        show (liveValueAt [e1, e2] rt []).isSome = false
        rw [hrootnone]
        rfl
      rw [hc1, hc2]
      simp
    · have hfut : ∀ e ∈ [e1, e2], rt < e.dht.1 := by
        intro e he
        rcases List.mem_pair.mp he with h | h
        · rw [h]; show rt < t; omega
        · rw [h]; show rt < t; omega
      have h0 : ([e1, e2] : Store) = [] ++ [e1, e2] := rfl
      rw [h0, subDocPresent_append_future hfut]
      rfl
  · -- full compaction at cutoff ≥ t erases both entries
    intro c hc
    rw [hs1]
    unfold fullCompact
    have hsup1 : viewSuperseded [e1, e2] c e1 = true := by
      unfold viewSuperseded
      rw [List.any_eq_true]
      refine ⟨e2, by simp, ?_⟩
      show (List.isPrefixOf [] [col] && dhtLtB (t, 0) (t, 1) && decide (t ≤ c)) = true
      simp [hlt01, hc]
    have hdead2 : deadAtCutoff e2 c = true := by
      show ((PrimitiveValue.kTombstone = PrimitiveValue.kTombstone : Bool)
        && decide (t ≤ c) || isExpired e2 c) = true
      simp [hc]
    simp [List.filter, hsup1, hdead2]
  · -- row tombstone, then column: present with the column
    intro rt hrt
    rw [hs2]
    have hroot : latestAt [d1, d2] [] rt none = some d1 := by
      apply latestAt_eq_max
      · rw [mem_candidates]
        exact ⟨by simp, rfl, by simpa using hrt, rfl⟩
      · intro x hx
        rw [mem_candidates] at hx
        rcases List.mem_pair.mp hx.1 with h | h
        · exact Or.inl h
        · exfalso
          rw [h] at hx
          exact hcolne hx.2.1
    have hlbcol : lbAt [d1, d2] rt [col] = some (t, 0) := by
      show lbWalk [d1, d2] rt ([] ++ [col]) []
        (bump none (latestAt [d1, d2] [] rt none)) = some (t, 0)
      rw [hroot]
      rfl
    have hcolval : liveValueAt [d1, d2] rt [col] = some v := by
      unfold liveValueAt entryAt
      rw [hlbcol]
      have h : latestAt [d1, d2] [col] rt (some (t, 0)) = some d2 := by
        apply latestAt_eq_max
        · rw [mem_candidates]
          refine ⟨by simp, rfl, by simpa using hrt, ?_⟩
          show dhtLtB (t, 0) (t, 1) = true
          exact hlt01
        · intro x hx
          rw [mem_candidates] at hx
          rcases List.mem_pair.mp hx.1 with h | h
          · exfalso
            rw [h] at hx
            exact hcolne hx.2.1.symm
          · exact Or.inl h
      rw [h]
      have hexp : isExpired d2 rt = false := rfl
      show (if (d2.value = PrimitiveValue.kTombstone : Bool) || isExpired d2 rt
        then none else some d2.value) = some v
      rw [hexp]
      simp [hv]
    refine ⟨?_, hcolval⟩
    refine @subDocPresent_of_live _ _ _ [col] rfl ?_
    rw [hcolval]
    rfl
  · -- compaction keeps exactly the column entry, and it stays readable
    intro c hc
    constructor
    · rw [hs2]
      unfold fullCompact
      have hdead1 : deadAtCutoff d1 c = true := by
        show ((PrimitiveValue.kTombstone = PrimitiveValue.kTombstone : Bool)
          && decide (t ≤ c) || isExpired d1 c) = true
        simp [hc]
      have hsup2 : viewSuperseded [d1, d2] c d2 = false := by
        unfold viewSuperseded
        rw [List.any_eq_false]
        intro x hx
        rcases List.mem_pair.mp hx with h | h
        · rw [h]
          show ¬(List.isPrefixOf [] [col] && dhtLtB (t, 1) (t, 0) && decide (t ≤ c)) = true
          simp [hnlt10]
        · rw [h]
          show ¬(List.isPrefixOf [col] [col] && dhtLtB (t, 1) (t, 1) && decide (t ≤ c)) = true
          simp [dhtLtB_irrefl]
      have hdead2 : deadAtCutoff d2 c = false := by
        show ((v = PrimitiveValue.kTombstone : Bool) && decide (t ≤ c)
          || isExpired d2 c) = false
        simp [hv, isExpired]
      simp [List.filter, hdead1, hsup2, hdead2]
    · intro rt hrt
      have hread : liveValueAt [({ subkeys := [col], dht := (t, 1), value := v } : DocEntry)]
          rt [col] = some v := by
        unfold liveValueAt
        rw [entryAt_singleton rfl]
        rw [if_pos (by simpa using hrt)]
        simp [hv, isExpired]
      refine ⟨hread, ?_⟩
      refine @subDocPresent_of_live _ _ _ [col] rfl ?_
      rw [hread]
      rfl

/-- Witness for C5: the theorem applied at `ColumnId(10)`, value
`"value1"` / `"value2"`, hybrid times 1000 and 2000, matching
`DocDBTest.TestDisambiguationOnWriteId`. -/
theorem C5_witness :
    subDocPresent (applyBatch [] 1000
      [{ subkeys := [.kColumnId 10], val := { v := .kString [118] } },
       { subkeys := [], val := { v := .kTombstone } }]) 5000 [] = false ∧
    fullCompact (applyBatch [] 1000
      [{ subkeys := [.kColumnId 10], val := { v := .kString [118] } },
       { subkeys := [], val := { v := .kTombstone } }]) 1000 = [] ∧
    subDocPresent (applyBatch [] 2000
      [{ subkeys := [], val := { v := .kTombstone } },
       { subkeys := [.kColumnId 10], val := { v := .kString [119] } }]) 2000 [] = true ∧
    fullCompact (applyBatch [] 2000
      [{ subkeys := [], val := { v := .kTombstone } },
       { subkeys := [.kColumnId 10], val := { v := .kString [119] } }]) 2001 =
      [{ subkeys := [.kColumnId 10], dht := (2000, 1), value := .kString [119] }] := by
  have h1 := C5_write_id_disambiguation (.kColumnId 10) (.kString [118]) 1000 (by decide)
  have h2 := C5_write_id_disambiguation (.kColumnId 10) (.kString [119]) 2000 (by decide)
  exact ⟨h1.1 5000, h1.2.1 1000 (by decide), (h2.2.2.1 2000 (by decide)).1,
    (h2.2.2.2 2001 (by decide)).1⟩

theorem properPrefixes_length {p q : List PrimitiveValue}
    (h : q ∈ properPrefixes p) : q.length < p.length := by
  induction p generalizing q with
  | nil => cases h
  | cons k rest ih =>
    rcases List.mem_cons.mp h with h' | h'
    · rw [h']
      simp
    · rcases List.mem_map.mp h' with ⟨q', hq', hmap⟩
      rw [← hmap]
      have := ih hq'
      simp
      omega

theorem utsAllowed_false_at_path {s : Store} {t : Nat} {path : List PrimitiveValue}
    {uin : Option Int} {ex : DocEntry}
    (hex : latestPhysAt s path = some ex)
    (hsome : ¬(ex.uts = none ∧ uin = none))
    (hlt : uin.getD (t : Int) < effTs ex) :
    utsAllowed s t path uin = false := by
  rcases hb : utsAllowed s t path uin with _ | _
  · rfl
  · exfalso
    unfold utsAllowed at hb
    rw [List.all_eq_true] at hb
    have hmem : path ∈ properPrefixes path ++ [path] :=
      List.mem_append_right _ (List.mem_cons_self _ _)
    have hthis := hb path hmem
    rw [hex] at hthis
    have hthis2 : (if (decide (ex.uts = none) && decide (uin = none)) = true then true
        else decide (uin.getD (t : Int) ≥ effTs ex)) = true := hthis
    by_cases hcase : (decide (ex.uts = none) && decide (uin = none)) = true
    · rw [Bool.and_eq_true, decide_eq_true_eq, decide_eq_true_eq] at hcase
      exact hsome hcase
    · rw [if_neg hcase, decide_eq_true_eq] at hthis2
      omega

theorem setPrimitivePuts_ok_of_allowed {s : Store} {t : Nat}
    {path : List PrimitiveValue} {val : WriteValue}
    (hallow : utsAllowed s t path val.uts = true) (hv : val.v ≠ .kTombstone) :
    setPrimitivePuts .optional s t path val = .ok [{ subkeys := path, val := val }] := by
  unfold setPrimitivePuts
  rw [if_neg (by simp), if_neg (by simp [hallow]), if_neg hv]
  rfl

/-- C6: user timestamps govern the staleness decision of the write path
whenever one is present on either side, while compaction ignores them:
1. a write whose effective timestamp (its user timestamp, else its write
   hybrid time) is strictly below that of the newest existing entry at the
   target path is silently dropped, regardless of how its hybrid time
   compares to the existing entry's (so an explicitly higher existing
   user timestamp always wins);
2. a write whose effective timestamp is equal-or-higher proceeds;
3. full-compaction retention is decided from physical hybrid times and
   tombstone/expiry state only — a superseded entry is dropped whatever
   user timestamp it carries; and
4. once compaction has removed every entry at and above a path, a write
   with an arbitrarily low user timestamp succeeds again. -/
theorem C6_user_timestamp_semantics :
    (∀ (s : Store) (t : Nat) (path : List PrimitiveValue) (v : PrimitiveValue)
       (ttl : Option Nat) (uin : Option Int) (ex : DocEntry),
      latestPhysAt s path = some ex → ¬(ex.uts = none ∧ uin = none) →
      uin.getD (t : Int) < effTs ex →
      setPrimitivePuts .optional s t path { v := v, ttl := ttl, uts := uin } = .ok []) ∧
    (∀ (s : Store) (t : Nat) (path : List PrimitiveValue) (v : PrimitiveValue)
       (ttl : Option Nat) (uin : Option Int) (ex : DocEntry),
      v ≠ .kTombstone →
      (∀ q ∈ properPrefixes path, latestPhysAt s q = none) →
      latestPhysAt s path = some ex →
      uin.getD (t : Int) ≥ effTs ex →
      setPrimitivePuts .optional s t path { v := v, ttl := ttl, uts := uin } =
        .ok [{ subkeys := path, val := { v := v, ttl := ttl, uts := uin } }]) ∧
    (∀ (s : Store) (c : Nat) (e : DocEntry),
      viewSuperseded s c e = true → e ∉ fullCompact s c) ∧
    (∀ (s : Store) (c t : Nat) (path : List PrimitiveValue) (v : PrimitiveValue)
       (ttl : Option Nat) (uin : Option Int),
      v ≠ .kTombstone →
      (∀ q ∈ properPrefixes path ++ [path], latestPhysAt (fullCompact s c) q = none) →
      setPrimitivePuts .optional (fullCompact s c) t path { v := v, ttl := ttl, uts := uin } =
        .ok [{ subkeys := path, val := { v := v, ttl := ttl, uts := uin } }]) := by
  refine ⟨?_, ?_, ?_, ?_⟩
  · intro s t path v ttl uin ex hex hsome hlt
    have hfalse := utsAllowed_false_at_path hex hsome hlt
    unfold setPrimitivePuts
    rw [if_neg (by simp), if_pos (by simp [hfalse])]
  · intro s t path v ttl uin ex hv hanc hex hge
    apply setPrimitivePuts_ok_of_allowed _ hv
    unfold utsAllowed
    rw [List.all_eq_true]
    intro q hq
    rcases List.mem_append.mp hq with h | h
    · rw [hanc q h]
    · have hqpath : q = path := by
        rcases List.mem_cons.mp h with h' | h'
        · exact h'
        · cases h'
      rw [hqpath, hex]
      show (if (decide (ex.uts = none) && decide (uin = none)) = true then true
        else decide (uin.getD (t : Int) ≥ effTs ex)) = true
      by_cases hcase : (decide (ex.uts = none) && decide (uin = none)) = true
      · rw [if_pos hcase]
      · rw [if_neg hcase, decide_eq_true_eq]
        omega
  · intro s c e hsup hmem
    unfold fullCompact at hmem
    rw [List.mem_filter] at hmem
    have := hmem.2
    rw [hsup] at this
    simp at this
  · intro s c t path v ttl uin hv hclean
    apply setPrimitivePuts_ok_of_allowed _ hv
    unfold utsAllowed
    rw [List.all_eq_true]
    intro q hq
    rw [hclean q hq]

/-- Witness for C6: the `TestCompactionWithUserTimestamp` scenario — a
write with user timestamp 4000 at hybrid time 3000 is dropped while the
row tombstone at hybrid time 5000 exists, the superseded old value is
compacted away despite anything user timestamps could say, and after the
full compaction at cutoff 5000 the very same write succeeds; a write with
an equal user timestamp supplants an existing user-timestamped value. -/
theorem C6_witness :
    setPrimitivePuts .optional
      [{ subkeys := [.kString [115]], dht := (3000, 0), value := .kString [118] },
       { subkeys := [.kString [115]], dht := (5000, 0), value := .kTombstone }]
      3000 [.kString [115]]
      { v := .kString [119], ttl := none, uts := some 4000 } = .ok [] ∧
    ({ subkeys := [.kString [115]], dht := (3000, 0),
       value := .kString [118] } : DocEntry) ∉
      fullCompact
        [{ subkeys := [.kString [115]], dht := (3000, 0), value := .kString [118] },
         { subkeys := [.kString [115]], dht := (5000, 0), value := .kTombstone }] 5000 ∧
    setPrimitivePuts .optional
      (fullCompact
        [{ subkeys := [.kString [115]], dht := (3000, 0), value := .kString [118] },
         { subkeys := [.kString [115]], dht := (5000, 0), value := .kTombstone }] 5000)
      3000 [.kString [115]]
      { v := .kString [119], ttl := none, uts := some 4000 } =
      .ok [{ subkeys := [.kString [115]],
             val := { v := .kString [119], ttl := none, uts := some 4000 } }] ∧
    setPrimitivePuts .optional
      [{ subkeys := [.kString [115]], dht := (3000, 0), value := .kString [118],
         ttl := none, uts := some 4000 }]
      9000 [.kString [115]]
      { v := .kString [120], ttl := none, uts := some 4000 } =
      .ok [{ subkeys := [.kString [115]],
             val := { v := .kString [120], ttl := none, uts := some 4000 } }] := by
  have h := C6_user_timestamp_semantics
  refine ⟨?_, ?_, ?_, ?_⟩
  · exact h.1 _ 3000 _ (.kString [119]) none (some 4000)
      { subkeys := [.kString [115]], dht := (5000, 0), value := .kTombstone }
      (by decide) (by simp) (by decide)
  · exact h.2.2.1 _ 5000 _ (by decide)
  · exact h.2.2.2 _ 5000 3000 _ (.kString [119]) none (some 4000) (by decide)
      (by intro q hq; fin_cases hq <;> decide)
  · exact h.2.1 _ 9000 _ (.kString [120]) none (some 4000)
      { subkeys := [.kString [115]], dht := (3000, 0), value := .kString [118],
        ttl := none, uts := some 4000 }
      (by decide) (by intro q hq; fin_cases hq <;> decide) (by decide) (by decide)

theorem singleton_isPrefixOf {k k' : PrimitiveValue}
    (h : List.isPrefixOf [k'] [k] = true) : k' = k := by
  rw [List.isPrefixOf_iff_prefix] at h
  rcases h with ⟨tl, htl⟩
  have := List.cons.injEq k' tl k [] ▸ htl
  rw [List.cons_append] at htl
  have h1 : k' = k := (List.cons.inj htl).1
  exact h1

/-- C9: when a collection's init marker has expired (via its own TTL) by
the compaction cutoff while the children, written later with longer TTLs,
are still live, a full compaction drops the init marker outright — without
rewriting it as a tombstone, and without touching any live child — and
`GetSubDocument` afterwards still finds the collection containing every
unexpired child; moreover the reader never hid those children behind the
marker in the first place: even with the (possibly expired) marker still
physically present, every live child reads back with its value.
(Scenario of `DocDBTest.TestCompactionForCollectionsWithTTL` and
`ExpectedDebugDumpForCollectionWithTTL(init_marker_expired = true)`.) -/
theorem C9_expired_init_marker_drops_cleanly (tm dm cutoff rt : Nat) (rest : Store)
    (hchild : ∀ e ∈ rest, ∃ k, e.subkeys = [k])
    (hdistinct : ∀ e1 ∈ rest, ∀ e2 ∈ rest, e1.subkeys = e2.subkeys → e1 = e2)
    (hafter : ∀ e ∈ rest, dhtLtB (tm, 0) e.dht = true)
    (hco : ∀ e ∈ rest, e.value ≠ .kTombstone ∧ isExpired e cutoff = false ∧
      e.dht.1 ≤ cutoff)
    (hrt : ∀ e ∈ rest, e.dht.1 ≤ rt ∧ isExpired e rt = false)
    (hexp : tm + dm < cutoff) :
    fullCompact ({ subkeys := [], dht := (tm, 0), value := .kObject, ttl := some dm } :: rest) cutoff = rest ∧
    (∀ e ∈ rest, liveValueAt rest rt e.subkeys = some e.value) ∧
    (rest ≠ [] → subDocPresent rest rt [] = true) ∧
    (∀ e ∈ rest, liveValueAt ({ subkeys := [], dht := (tm, 0), value := .kObject, ttl := some dm } :: rest) rt e.subkeys = some e.value) := by
  set M : DocEntry := { subkeys := [], dht := (tm, 0), value := .kObject, ttl := some dm } with hM
  have hchild_val : ∀ e ∈ rest, liveValueAt rest rt e.subkeys = some e.value := by
    intro e he
    obtain ⟨k, hk⟩ := hchild e he
    have hlb : lbAt rest rt e.subkeys = none := by
      apply lbAt_eq_none
      intro e' he' i hi
      obtain ⟨k', hk'⟩ := hchild e' he'
      rw [hk, hk'] at *
      have : i = 0 := by
        rw [hk] at hi
        simp at hi
        omega
      rw [this, hk]
      simp
    have hlatest : latestAt rest e.subkeys rt (lbAt rest rt e.subkeys) = some e := by
      rw [hlb]
      apply latestAt_eq_max
      · rw [mem_candidates]
        exact ⟨he, rfl, (hrt e he).1, rfl⟩
      · intro c hc
        rw [mem_candidates] at hc
        exact Or.inl (hdistinct c hc.1 e he hc.2.1)
    unfold liveValueAt entryAt
    rw [hlatest]
    show (if (decide (e.value = PrimitiveValue.kTombstone) || isExpired e rt) = true
      then none else some e.value) = some e.value
    rw [(hrt e he).2]
    simp [(hco e he).1]
  refine ⟨?_, hchild_val, ?_, ?_⟩
  · -- compaction drops the marker and keeps every child unchanged
    unfold fullCompact
    rw [List.filter_cons]
    have hdeadM : deadAtCutoff M cutoff = true := by
      have : isExpired M cutoff = true := by
        simp only [hM, isExpired, decide_eq_true_eq]
        exact hexp
      simp [deadAtCutoff, this]
    rw [if_neg (by simp [hdeadM])]
    rw [List.filter_eq_self]
    intro e he
    have hsup : viewSuperseded (M :: rest) cutoff e = false := by
      unfold viewSuperseded
      rw [List.any_eq_false]
      intro w hw
      rcases List.mem_cons.mp hw with h | h
      · rw [h]
        have : dhtLtB e.dht M.dht = false := dhtLtB_asymm (hafter e he)
        simp [this]
      · by_cases hpre : List.isPrefixOf w.subkeys e.subkeys = true
        · obtain ⟨k, hk⟩ := hchild e he
          obtain ⟨k', hk'⟩ := hchild w h
          rw [hk, hk'] at hpre
          have hkk := singleton_isPrefixOf hpre
          have hsame : w.subkeys = e.subkeys := by rw [hk, hk', hkk]
          have : w = e := hdistinct w h e he hsame
          rw [this]
          simp [dhtLtB_irrefl]
        · simp [hpre]
    have hdead : deadAtCutoff e cutoff = false := by
      unfold deadAtCutoff
      simp [(hco e he).1, (hco e he).2.1]
    simp [hsup, hdead]
  · -- the collection is still found
    intro hne
    rcases hr : rest with _ | ⟨e, rest'⟩
    · exact absurd hr hne
    · have he : e ∈ rest := by rw [hr]; exact List.mem_cons_self _ _
      refine @subDocPresent_of_live _ _ _ e.subkeys (by rw [List.isPrefixOf]) ?_
      rw [← hr, hchild_val e he]
      rfl
  · -- the expired marker never hid the live children
    intro e he
    obtain ⟨k, hk⟩ := hchild e he
    have hob : obLt (lbAt (M :: rest) rt e.subkeys) e.dht = true := by
      rcases lbAt_sources (M :: rest) rt e.subkeys with h | ⟨w, hw, hlen, heq⟩
      · rw [h]; rfl
      · rw [heq]
        have hwM : w = M := by
          rcases List.mem_cons.mp hw with h' | h'
          · exact h'
          · exfalso
            obtain ⟨k', hk'⟩ := hchild w h'
            rw [hk', hk] at hlen
            simp at hlen
        rw [hwM]
        exact hafter e he
    have hlatest : latestAt (M :: rest) e.subkeys rt (lbAt (M :: rest) rt e.subkeys) =
        some e := by
      apply latestAt_eq_max
      · rw [mem_candidates]
        exact ⟨List.mem_cons_of_mem _ he, rfl, (hrt e he).1, hob⟩
      · intro c hc
        rw [mem_candidates] at hc
        rcases List.mem_cons.mp hc.1 with h | h
        · exfalso
          have : M.subkeys = e.subkeys := by rw [← h]; exact (h ▸ hc.2.1)
          rw [hk] at this
          simp [hM] at this
        · exact Or.inl (hdistinct c h e he hc.2.1)
    unfold liveValueAt entryAt
    rw [hlatest]
    show (if (decide (e.value = PrimitiveValue.kTombstone) || isExpired e rt) = true
      then none else some e.value) = some e.value
    rw [(hrt e he).2]
    simp [(hco e he).1]

/-- Witness for C9: the collection of
`TestCompactionForCollectionsWithTTL` (marker at hybrid time 1000 with ttl
10s, two children re-written at hybrid time 1100 with ttls 20s and 21s,
times in microseconds), compacted at cutoff `1050 + 10s` and read at 1200:
the marker is dropped, both children are kept and found. -/
theorem C9_witness :
    fullCompact
      [{ subkeys := [], dht := (1000, 0), value := .kObject, ttl := some 10000000 },
       { subkeys := [.kString [107]], dht := (1100, 0), value := .kString [118], ttl := some 20000000 },
       { subkeys := [.kString [108]], dht := (1100, 1), value := .kString [119], ttl := some 21000000 }]
      10001050 =
      [{ subkeys := [.kString [107]], dht := (1100, 0), value := .kString [118], ttl := some 20000000 },
       { subkeys := [.kString [108]], dht := (1100, 1), value := .kString [119], ttl := some 21000000 }] ∧
    subDocPresent
      [{ subkeys := [.kString [107]], dht := (1100, 0), value := .kString [118], ttl := some 20000000 },
       { subkeys := [.kString [108]], dht := (1100, 1), value := .kString [119], ttl := some 21000000 }]
      1200 [] = true ∧
    liveValueAt
      [{ subkeys := [], dht := (1000, 0), value := .kObject, ttl := some 10000000 },
       { subkeys := [.kString [107]], dht := (1100, 0), value := .kString [118], ttl := some 20000000 },
       { subkeys := [.kString [108]], dht := (1100, 1), value := .kString [119], ttl := some 21000000 }]
      1200 [.kString [107]] = some (.kString [118]) := by
  have h := C9_expired_init_marker_drops_cleanly 1000 10000000 10001050 1200
    [{ subkeys := [.kString [107]], dht := (1100, 0), value := .kString [118], ttl := some 20000000 },
     { subkeys := [.kString [108]], dht := (1100, 1), value := .kString [119], ttl := some 21000000 }]
    (by
      intro e he
      rcases List.mem_pair.mp he with h | h
      · exact ⟨.kString [107], by rw [h]⟩
      · exact ⟨.kString [108], by rw [h]⟩)
    (by decide) (by decide) (by decide) (by decide) (by decide)
  refine ⟨h.1, h.2.2.1 (by decide), ?_⟩
  exact h.2.2.2
    { subkeys := [.kString [107]], dht := (1100, 0), value := .kString [118], ttl := some 20000000 }
    (by decide)

/-! ## Codec order lemmas -/

theorem lexLtB_irrefl (x : List Nat) : lexLtB x x = false := by
  induction x with
  | nil => rfl
  | cons a as ih => simp [lexLtB, ih]

theorem lexLtB_append_left (c : List Nat) (u v : List Nat) :
    lexLtB (c ++ u) (c ++ v) = lexLtB u v := by
  induction c with
  | nil => rfl
  | cons a as ih => simp [lexLtB, ih]

/-- When neither side is a prefix of the other, the comparison of the
concatenations is decided within the heads. -/
theorem lexLtB_append_divergent {x y : List Nat}
    (hxy : ¬ x <+: y) (hyx : ¬ y <+: x) (u v : List Nat) :
    lexLtB (x ++ u) (y ++ v) = lexLtB x y := by
  induction x generalizing y with
  | nil => exact absurd List.nil_prefix hxy
  | cons a as ih =>
    cases y with
    | nil => exact absurd List.nil_prefix hyx
    | cons b bs =>
      by_cases hab : a = b
      · subst hab
        have h1 : ¬ as <+: bs := fun h => hxy (List.cons_prefix_cons.mpr ⟨rfl, h⟩)
        have h2 : ¬ bs <+: as := fun h => hyx (List.cons_prefix_cons.mpr ⟨rfl, h⟩)
        simp [lexLtB, ih h1 h2]
      · by_cases hlt : a < b
        · simp [lexLtB, hlt]
        · simp [lexLtB, hlt, hab]

theorem lexLtB_trichotomy {x y : List Nat} (h1 : lexLtB x y = false)
    (h2 : lexLtB y x = false) : x = y := by
  induction x generalizing y with
  | nil =>
    cases y with
    | nil => rfl
    | cons b bs => simp [lexLtB] at h1
  | cons a as ih =>
    cases y with
    | nil => simp [lexLtB] at h2
    | cons b bs =>
      by_cases hab : a = b
      · subst hab
        simp [lexLtB] at h1 h2
        rw [ih h1 h2]
      · exfalso
        rcases Nat.lt_trichotomy a b with h | h | h
        · simp [lexLtB, h] at h1
        · exact hab h
        · simp [lexLtB, h] at h2

/-! ### Strings -/

theorem escape_length_pos (c : Nat) (r : List Nat) :
    0 < (escape (c :: r)).length := by
  by_cases h : c = 0 <;> simp [escape, h]

/-- Zero-escaping plus the `0x00 0x00` terminator preserves the byte-wise
lexicographic order of the raw strings. -/
theorem strEnc_lt (a b : List Nat) : lexLtB (strEnc a) (strEnc b) = lexLtB a b := by
  induction a generalizing b with
  | nil =>
    cases b with
    | nil => simp [strEnc, escape, lexLtB]
    | cons d bs =>
      show lexLtB ([] ++ [0, 0]) (escape (d :: bs) ++ [0, 0]) = true
      by_cases hd : d = 0
      · subst hd
        simp [escape, lexLtB]
      · have hd' : 0 < d := Nat.pos_of_ne_zero hd
        simp [escape, hd, lexLtB, hd']
  | cons c as ih =>
    cases b with
    | nil =>
      show lexLtB (escape (c :: as) ++ [0, 0]) ([] ++ [0, 0]) = false
      by_cases hc : c = 0
      · subst hc
        simp [escape, lexLtB]
      · have hc' : ¬ c < 0 := by omega
        simp [escape, hc, lexLtB, hc']
    | cons d bs =>
      show lexLtB (escape (c :: as) ++ [0, 0]) (escape (d :: bs) ++ [0, 0]) =
        lexLtB (c :: as) (d :: bs)
      by_cases hc : c = 0 <;> by_cases hd : d = 0
      · subst hc; subst hd
        have := ih bs
        simp [escape, lexLtB]
        exact this
      · subst hc
        have hd' : 0 < d := Nat.pos_of_ne_zero hd
        simp [escape, hd, lexLtB, hd']
      · subst hd
        have hc' : ¬ c < 0 := by omega
        simp [escape, hc, lexLtB, hc', Ne.symm hc]
      · have := ih bs
        by_cases hcd : c = d
        · subst hcd
          simp [escape, hc, lexLtB]
          exact this
        · by_cases hlt : c < d
          · simp [escape, hc, hd, lexLtB, hlt]
          · simp [escape, hc, hd, lexLtB, hlt, hcd]

/-- The string encoding is prefix-free: one encoded string is a prefix of
another only when the strings are equal. -/
theorem strEnc_prefix_inj {a b : List Nat} (h : strEnc a <+: strEnc b) : a = b := by
  induction a generalizing b with
  | nil =>
    cases b with
    | nil => rfl
    | cons d bs =>
      exfalso
      by_cases hd : d = 0
      · subst hd
        have : (0 : Nat) = 0 ∧ [0] <+: (1 :: escape bs ++ [0, 0]) := by
          have h' : (0 :: [0] : List Nat) <+: (0 :: 1 :: escape bs ++ [0, 0]) := by
            simpa [strEnc, escape] using h
          exact List.cons_prefix_cons.mp h'
        rcases List.cons_prefix_cons.mp this.2 with ⟨h01, _⟩
        omega
      · have h' : (0 :: [0] : List Nat) <+: (d :: escape bs ++ [0, 0]) := by
          simpa [strEnc, escape, hd] using h
        rcases List.cons_prefix_cons.mp h' with ⟨h01, _⟩
        omega
  | cons c as ih =>
    cases b with
    | nil =>
      exfalso
      have hlen := h.length_le
      have h1 : (strEnc (c :: as)).length = (escape (c :: as)).length + 2 := by
        simp [strEnc]
      have h2 : (strEnc ([] : List Nat)).length = 2 := by simp [strEnc, escape]
      have := escape_length_pos c as
      omega
    | cons d bs =>
      by_cases hc : c = 0 <;> by_cases hd : d = 0
      · subst hc; subst hd
        have h' : (0 :: 1 :: (escape as ++ [0, 0]) : List Nat) <+:
            (0 :: 1 :: (escape bs ++ [0, 0])) := by
          simpa [strEnc, escape] using h
        rcases List.cons_prefix_cons.mp h' with ⟨_, h''⟩
        rcases List.cons_prefix_cons.mp h'' with ⟨_, h3⟩
        rw [ih (show strEnc as <+: strEnc bs from h3)]
      · exfalso
        subst hc
        have h' : (0 :: 1 :: (escape as ++ [0, 0]) : List Nat) <+:
            (d :: (escape bs ++ [0, 0])) := by
          simpa [strEnc, escape, hd] using h
        rcases List.cons_prefix_cons.mp h' with ⟨h0d, _⟩
        exact hd h0d.symm
      · exfalso
        subst hd
        have h' : (c :: (escape as ++ [0, 0]) : List Nat) <+:
            (0 :: 1 :: (escape bs ++ [0, 0])) := by
          simpa [strEnc, escape, hc] using h
        rcases List.cons_prefix_cons.mp h' with ⟨hc0, _⟩
        exact hc hc0
      · have h' : (c :: (escape as ++ [0, 0]) : List Nat) <+:
            (d :: (escape bs ++ [0, 0])) := by
          simpa [strEnc, escape, hc, hd] using h
        rcases List.cons_prefix_cons.mp h' with ⟨hcd, h''⟩
        rw [hcd]
        rw [ih (show strEnc as <+: strEnc bs from h'')]

/-! ### Fixed-width big-endian integers -/

theorem pos_cmp {B rm rn am an : Nat} (hrm : rm < B) (hrn : rn < B) :
    (rm + B * am < rn + B * an) ↔ (am < an ∨ (am = an ∧ rm < rn)) := by
  constructor
  · intro h
    rcases Nat.lt_trichotomy am an with h' | h' | h'
    · exact Or.inl h'
    · subst h'
      right
      exact ⟨rfl, by omega⟩
    · exfalso
      have h1 : rn + B * an < B + B * an := by omega
      have h2 : B + B * an = B * (an + 1) := by ring
      have h3 : B * (an + 1) ≤ B * am := Nat.mul_le_mul_left B h'
      have h4 : B * am ≤ rm + B * am := Nat.le_add_left _ _
      omega
  · intro h
    rcases h with h | ⟨h1, h2⟩
    · have ha : rm + B * am < B + B * am := by omega
      have hb : B + B * am = B * (am + 1) := by ring
      have hc : B * (am + 1) ≤ B * an := Nat.mul_le_mul_left B h
      have hd : B * an ≤ rn + B * an := Nat.le_add_left _ _
      omega
    · subst h1
      omega

theorem beBytes_length (k n : Nat) : (beBytes k n).length = k := by
  induction k generalizing n with
  | zero => rfl
  | succ k ih => simp [beBytes, ih]

theorem beBytes_head_lt (k n : Nat) : n / 256 ^ k % 256 < 256 :=
  Nat.mod_lt _ (by omega)

/-- Fixed-width big-endian byte strings compare exactly like the encoded
values modulo the width. -/
theorem beBytes_lt (k : Nat) : ∀ m n : Nat,
    lexLtB (beBytes k m) (beBytes k n) = decide (m % 256 ^ k < n % 256 ^ k) := by
  induction k with
  | zero =>
    intro m n
    simp [beBytes, lexLtB, Nat.mod_one]
  | succ k ih =>
    intro m n
    have hm : m % 256 ^ (k + 1) = m % 256 ^ k + 256 ^ k * (m / 256 ^ k % 256) := by
      rw [pow_succ]
      exact Nat.mod_mul
    have hn : n % 256 ^ (k + 1) = n % 256 ^ k + 256 ^ k * (n / 256 ^ k % 256) := by
      rw [pow_succ]
      exact Nat.mod_mul
    have hmr : m % 256 ^ k < 256 ^ k := Nat.mod_lt _ (Nat.pos_pow_of_pos _ (by omega))
    have hnr : n % 256 ^ k < 256 ^ k := Nat.mod_lt _ (Nat.pos_pow_of_pos _ (by omega))
    show lexLtB (m / 256 ^ k % 256 :: beBytes k m) (n / 256 ^ k % 256 :: beBytes k n) = _
    by_cases hlt : m / 256 ^ k % 256 < n / 256 ^ k % 256
    · have : m % 256 ^ (k + 1) < n % 256 ^ (k + 1) := by
        rw [hm, hn]
        exact (pos_cmp hmr hnr).mpr (Or.inl hlt)
      simp [lexLtB, hlt, this]
    · by_cases heq : m / 256 ^ k % 256 = n / 256 ^ k % 256
      · have hiff : (m % 256 ^ (k + 1) < n % 256 ^ (k + 1)) ↔
            (m % 256 ^ k < n % 256 ^ k) := by
          rw [hm, hn, heq]
          constructor
          · intro h
            rcases (pos_cmp hmr hnr).mp h with h' | h'
            · omega
            · exact h'.2
          · intro h
            exact (pos_cmp hmr hnr).mpr (Or.inr ⟨rfl, h⟩)
        rw [show lexLtB (m / 256 ^ k % 256 :: beBytes k m)
            (n / 256 ^ k % 256 :: beBytes k n) = lexLtB (beBytes k m) (beBytes k n) by
          simp [lexLtB, hlt, heq]]
        rw [ih m n]
        rcases hd : decide (m % 256 ^ k < n % 256 ^ k) with _ | _
        · simp at hd
          simp [hiff, hd]
        · simp at hd
          simp [hiff, hd]
      · have hgt : n / 256 ^ k % 256 < m / 256 ^ k % 256 := by omega
        have : ¬ (m % 256 ^ (k + 1) < n % 256 ^ (k + 1)) := by
          intro h
          rw [hm, hn] at h
          rcases (pos_cmp hmr hnr).mp h with h' | h'
          · omega
          · exact heq h'.1
        simp [lexLtB, hlt, heq, this]

theorem beBytes_lt_of_bounds {k m n : Nat} (hm : m < 256 ^ k) (hn : n < 256 ^ k) :
    lexLtB (beBytes k m) (beBytes k n) = decide (m < n) := by
  rw [beBytes_lt, Nat.mod_eq_of_lt hm, Nat.mod_eq_of_lt hn]

theorem beBytes_inj {k m n : Nat} (hm : m < 256 ^ k) (hn : n < 256 ^ k)
    (h : beBytes k m = beBytes k n) : m = n := by
  have h1 : lexLtB (beBytes k m) (beBytes k n) = false := by
    rw [h]
    exact lexLtB_irrefl _
  have h2 : lexLtB (beBytes k n) (beBytes k m) = false := by
    rw [h]
    exact lexLtB_irrefl _
  rw [beBytes_lt_of_bounds hm hn] at h1
  rw [beBytes_lt_of_bounds hn hm] at h2
  simp at h1 h2
  omega

theorem beBytes_prefix_free {k m n : Nat} (hne : beBytes k m ≠ beBytes k n) :
    ¬ (beBytes k m <+: beBytes k n) := by
  intro h
  exact hne (h.eq_of_length (by rw [beBytes_length, beBytes_length]))

/-! ### Components -/

theorem kcEnc_head (a : KComp) :
    ∃ t rest, kcEnc a = t :: rest ∧ 0x23 < t ∧ t ≠ 0x47 := by
  cases a with
  | kcInt n => exact ⟨0x49, _, rfl, by omega, by omega⟩
  | kcInet bs => exact ⟨0x4a, _, rfl, by omega, by omega⟩
  | kcStr s => exact ⟨0x53, _, rfl, by omega, by omega⟩

theorem int_shift_bound {n : Int} (h : -(2 ^ 63) ≤ n ∧ n < 2 ^ 63) :
    (n + 2 ^ 63).toNat < 256 ^ 8 := by
  have h8 : (256 : Nat) ^ 8 = 18446744073709551616 := by norm_num
  have h63 : (2 : Int) ^ 63 = 9223372036854775808 := by norm_num
  omega

theorem lexLtB_cons_same (a : Nat) (xs ys : List Nat) :
    lexLtB (a :: xs) (a :: ys) = lexLtB xs ys := by
  simp [lexLtB]

theorem kcEnc_lt {a b : KComp} (ha : kcValid a) (hb : kcValid b) :
    lexLtB (kcEnc a) (kcEnc b) = kcLtB a b := by
  cases a with
  | kcInt m =>
    cases b with
    | kcInt n =>
      simp only [kcEnc, kcLtB, lexLtB_cons_same]
      rw [beBytes_lt_of_bounds (int_shift_bound ha) (int_shift_bound hb)]
      apply decide_eq_decide.mpr
      have h63 : (2 : Int) ^ 63 = 9223372036854775808 := by norm_num
      unfold kcValid at ha hb
      omega
    | kcInet bs => simp [kcEnc, kcLtB, lexLtB]
    | kcStr s => simp [kcEnc, kcLtB, lexLtB]
  | kcInet as =>
    cases b with
    | kcInt n => simp [kcEnc, kcLtB, lexLtB]
    | kcInet bs =>
      simp only [kcEnc, kcLtB, lexLtB_cons_same]
      exact strEnc_lt as bs
    | kcStr s => simp [kcEnc, kcLtB, lexLtB]
  | kcStr as =>
    cases b with
    | kcInt n => simp [kcEnc, kcLtB, lexLtB]
    | kcInet bs => simp [kcEnc, kcLtB, lexLtB]
    | kcStr bs =>
      simp only [kcEnc, kcLtB, lexLtB_cons_same]
      exact strEnc_lt as bs

theorem kcLtB_irrefl (a : KComp) : kcLtB a a = false := by
  cases a with
  | kcInt n => simp [kcLtB]
  | kcInet bs => simp [kcLtB, lexLtB_irrefl]
  | kcStr s => simp [kcLtB, lexLtB_irrefl]

theorem kcLtB_trichotomy {a b : KComp} (h1 : kcLtB a b = false)
    (h2 : kcLtB b a = false) : a = b := by
  cases a <;> cases b <;> simp [kcLtB] at h1 h2 ⊢
  · omega
  · exact lexLtB_trichotomy h1 h2
  · exact lexLtB_trichotomy h1 h2

theorem strEnc_inj {a b : List Nat} (h : strEnc a = strEnc b) : a = b :=
  strEnc_prefix_inj (h ▸ List.prefix_refl _)

theorem kcEnc_prefix_free {a b : KComp} (ha : kcValid a) (hb : kcValid b)
    (hne : a ≠ b) : ¬ (kcEnc a <+: kcEnc b) := by
  intro h
  cases a with
  | kcInt m =>
    cases b with
    | kcInt n =>
      have hlen : (kcEnc (KComp.kcInt m)).length = (kcEnc (KComp.kcInt n)).length := by
        show (0x49 :: beBytes 8 (m + 2 ^ 63).toNat).length =
          (0x49 :: beBytes 8 (n + 2 ^ 63).toNat).length
        simp [beBytes_length]
      have heq := h.eq_of_length hlen
      apply hne
      have h' := (List.cons.inj heq).2
      have := beBytes_inj (int_shift_bound ha) (int_shift_bound hb) h'
      have h63 : (2 : Int) ^ 63 = 9223372036854775808 := by norm_num
      unfold kcValid at ha hb
      congr 1
      omega
    | kcInet bs => rcases List.cons_prefix_cons.mp h with ⟨h', _⟩; omega
    | kcStr s => rcases List.cons_prefix_cons.mp h with ⟨h', _⟩; omega
  | kcInet as =>
    cases b with
    | kcInt n => rcases List.cons_prefix_cons.mp h with ⟨h', _⟩; omega
    | kcInet bs =>
      rcases List.cons_prefix_cons.mp h with ⟨_, h'⟩
      exact hne (by rw [strEnc_prefix_inj h'])
    | kcStr s => rcases List.cons_prefix_cons.mp h with ⟨h', _⟩; omega
  | kcStr as =>
    cases b with
    | kcInt n => rcases List.cons_prefix_cons.mp h with ⟨h', _⟩; omega
    | kcInet bs => rcases List.cons_prefix_cons.mp h with ⟨h', _⟩; omega
    | kcStr bs =>
      rcases List.cons_prefix_cons.mp h with ⟨_, h'⟩
      exact hne (by rw [strEnc_prefix_inj h'])

theorem kcEnc_inj {a b : KComp} (ha : kcValid a) (hb : kcValid b)
    (h : kcEnc a = kcEnc b) : a = b := by
  by_cases hne : a = b
  · exact hne
  · exact absurd (h ▸ List.prefix_refl _) (kcEnc_prefix_free ha hb hne)

/-! ### Component groups -/

theorem lexLtB_append_eq_length : ∀ {xs ys : List Nat}, xs.length = ys.length →
    ∀ u v, lexLtB (xs ++ u) (ys ++ v) = if xs = ys then lexLtB u v else lexLtB xs ys := by
  intro xs
  induction xs with
  | nil =>
    intro ys h u v
    cases ys with
    | nil => simp
    | cons b bs => simp at h
  | cons a as ih =>
    intro ys h u v
    cases ys with
    | nil => simp at h
    | cons b bs =>
      have h' : as.length = bs.length := by simpa using h
      by_cases hab : a < b
      · have hne : a :: as ≠ b :: bs := by intro hc; rw [List.cons.injEq] at hc; omega
        simp [lexLtB, hab, hne]
      · by_cases heq : a = b
        · subst heq
          show (if a < a then true else if a = a then lexLtB (as ++ u) (bs ++ v) else false) =
            if a :: as = a :: bs then lexLtB u v else lexLtB (a :: as) (a :: bs)
          rw [if_neg hab, if_pos rfl, ih h' u v]
          by_cases hl : as = bs
          · simp [hl]
          · have hne : a :: as ≠ a :: bs := by simp [hl]
            simp [hl, hne, lexLtB]
        · have hne : a :: as ≠ b :: bs := by simp [heq]
          simp [lexLtB, hab, heq, hne]

theorem kcListLtB_irrefl (l : List KComp) : kcListLtB l l = false := by
  induction l with
  | nil => rfl
  | cons a as ih => simp [kcListLtB, kcLtB_irrefl, ih]

theorem compsEnc_cons (x : KComp) (l : List KComp) :
    compsEnc (x :: l) = kcEnc x ++ compsEnc l := by
  simp [compsEnc]

theorem compsEnc_lt : ∀ {l1 l2 : List KComp}, (∀ c ∈ l1, kcValid c) →
    (∀ c ∈ l2, kcValid c) → lexLtB (compsEnc l1) (compsEnc l2) = kcListLtB l1 l2 := by
  intro l1
  induction l1 with
  | nil =>
    intro l2 _ h2
    cases l2 with
    | nil => simp [compsEnc, kcListLtB, lexLtB]
    | cons y ys =>
      obtain ⟨t, rest, ht, hgt, _⟩ := kcEnc_head y
      rw [compsEnc_cons, ht]
      show lexLtB [0x21] (t :: (rest ++ compsEnc ys)) = kcListLtB [] (y :: ys)
      simp [lexLtB, kcListLtB]
      omega
  | cons x xs ih =>
    intro l2 h1 h2
    cases l2 with
    | nil =>
      obtain ⟨t, rest, ht, hgt, _⟩ := kcEnc_head x
      rw [compsEnc_cons, ht]
      show lexLtB (t :: (rest ++ compsEnc xs)) [0x21] = kcListLtB (x :: xs) []
      have h1' : ¬ t < 0x21 := by omega
      have h2' : t ≠ 0x21 := by omega
      simp [lexLtB, kcListLtB, h1', h2']
    | cons y ys =>
      have hx : kcValid x := h1 x (List.mem_cons_self _ _)
      have hy : kcValid y := h2 y (List.mem_cons_self _ _)
      rw [compsEnc_cons, compsEnc_cons]
      by_cases hxy : x = y
      · subst hxy
        rw [lexLtB_append_left]
        rw [ih (fun c hc => h1 c (List.mem_cons_of_mem _ hc))
            (fun c hc => h2 c (List.mem_cons_of_mem _ hc))]
        simp [kcListLtB, kcLtB_irrefl]
      · rw [lexLtB_append_divergent (kcEnc_prefix_free hx hy hxy)
          (kcEnc_prefix_free hy hx (fun hc => hxy hc.symm)), kcEnc_lt hx hy]
        cases h : kcLtB x y <;> simp [kcListLtB, hxy, h]

theorem compsEnc_prefix_free : ∀ {l1 l2 : List KComp}, (∀ c ∈ l1, kcValid c) →
    (∀ c ∈ l2, kcValid c) → l1 ≠ l2 → ¬ (compsEnc l1 <+: compsEnc l2) := by
  intro l1
  induction l1 with
  | nil =>
    intro l2 _ h2 hne h
    cases l2 with
    | nil => exact hne rfl
    | cons y ys =>
      obtain ⟨t, rest, ht, hgt, _⟩ := kcEnc_head y
      rw [compsEnc_cons, ht] at h
      have h' : (0x21 : Nat) = t := (List.cons_prefix_cons.mp h).1
      omega
  | cons x xs ih =>
    intro l2 h1 h2 hne h
    cases l2 with
    | nil =>
      obtain ⟨t, rest, ht, hgt, _⟩ := kcEnc_head x
      rw [compsEnc_cons, ht] at h
      have h' : t = 0x21 := (List.cons_prefix_cons.mp h).1
      omega
    | cons y ys =>
      have hx : kcValid x := h1 x (List.mem_cons_self _ _)
      have hy : kcValid y := h2 y (List.mem_cons_self _ _)
      rw [compsEnc_cons, compsEnc_cons] at h
      by_cases hxy : x = y
      · subst hxy
        have h' : compsEnc xs <+: compsEnc ys := by
          obtain ⟨t, ht⟩ := h
          exact ⟨t, by have := ht; rw [List.append_assoc] at this
                       exact List.append_cancel_left this⟩
        exact ih (fun c hc => h1 c (List.mem_cons_of_mem _ hc))
          (fun c hc => h2 c (List.mem_cons_of_mem _ hc))
          (fun hc => hne (by rw [hc])) h'
      · have hpx : kcEnc x <+: kcEnc y ++ compsEnc ys :=
          ((kcEnc x).prefix_append (compsEnc xs)).trans h
        have hpy : kcEnc y <+: kcEnc y ++ compsEnc ys :=
          (kcEnc y).prefix_append (compsEnc ys)
        rcases List.prefix_or_prefix_of_prefix hpx hpy with h' | h'
        · exact kcEnc_prefix_free hx hy hxy h'
        · exact kcEnc_prefix_free hy hx (fun hc => hxy hc.symm) h'

theorem compsEnc_inj {l1 l2 : List KComp} (h1 : ∀ c ∈ l1, kcValid c)
    (h2 : ∀ c ∈ l2, kcValid c) (h : compsEnc l1 = compsEnc l2) : l1 = l2 := by
  by_cases hne : l1 = l2
  · exact hne
  · exact absurd (h ▸ List.prefix_refl _) (compsEnc_prefix_free h1 h2 hne)

/-! ### Doc keys -/

theorem dkEnc_none {dk : DocKey} (hh : dk.hash = none) :
    dkEnc dk = compsEnc dk.range := by
  unfold dkEnc; rw [hh]

theorem dkEnc_some {dk : DocKey} {h : Nat} (hh : dk.hash = some h) :
    dkEnc dk = 0x47 :: (beBytes 2 h ++ (compsEnc dk.hashed ++ compsEnc dk.range)) := by
  unfold dkEnc; rw [hh]

theorem dkLtB_none {a b : DocKey} (ha : a.hash = none) (hb : b.hash = none) :
    dkLtB a b = kcListLtB a.range b.range := by
  unfold dkLtB; rw [ha, hb]

theorem dkLtB_some {a b : DocKey} {h1 h2 : Nat} (ha : a.hash = some h1)
    (hb : b.hash = some h2) :
    dkLtB a b = (if h1 < h2 then true else if h1 = h2 then
      (if kcListLtB a.hashed b.hashed then true
       else if a.hashed = b.hashed then kcListLtB a.range b.range else false)
      else false) := by
  unfold dkLtB; rw [ha, hb]

theorem dkEnc_lt_none {a b : DocKey} (ha : a.hash = none) (hb : b.hash = none)
    (hva : dkValid a) (hvb : dkValid b) :
    lexLtB (dkEnc a) (dkEnc b) = dkLtB a b := by
  rw [dkEnc_none ha, dkEnc_none hb, dkLtB_none ha hb]
  exact compsEnc_lt hva.2.1 hvb.2.1

theorem dkEnc_lt_some {a b : DocKey} {h1 h2 : Nat} (ha : a.hash = some h1)
    (hb : b.hash = some h2) (hva : dkValid a) (hvb : dkValid b) :
    lexLtB (dkEnc a) (dkEnc b) = dkLtB a b := by
  obtain ⟨hah, har, _, hahb⟩ := hva
  obtain ⟨hbh, hbr, _, hbhb⟩ := hvb
  have e216 : (256 : Nat) ^ 2 = 2 ^ 16 := by norm_num
  have hb1 : h1 < 256 ^ 2 := by rw [e216]; exact hahb h1 ha
  have hb2 : h2 < 256 ^ 2 := by rw [e216]; exact hbhb h2 hb
  rw [dkEnc_some ha, dkEnc_some hb, dkLtB_some ha hb, lexLtB_cons_same,
    lexLtB_append_eq_length (by rw [beBytes_length, beBytes_length]) _ _]
  by_cases hh : h1 = h2
  · subst hh
    rw [if_pos rfl]
    by_cases hhl : a.hashed = b.hashed
    · rw [hhl, lexLtB_append_left, compsEnc_lt har hbr]
      simp [kcListLtB_irrefl]
    · rw [lexLtB_append_divergent (compsEnc_prefix_free hah hbh hhl)
        (compsEnc_prefix_free hbh hah (fun hc => hhl hc.symm)), compsEnc_lt hah hbh]
      cases hcl : kcListLtB a.hashed b.hashed <;> simp [hhl, hcl]
  · have hne : beBytes 2 h1 ≠ beBytes 2 h2 :=
      fun hc => hh (beBytes_inj hb1 hb2 hc)
    rw [if_neg hne, beBytes_lt_of_bounds hb1 hb2]
    by_cases hlt : h1 < h2 <;> simp [hlt, hh]

theorem dkEnc_inj {a b : DocKey} (hva : dkValid a) (hvb : dkValid b)
    (h : dkEnc a = dkEnc b) : a = b := by
  obtain ⟨hah, har, hane, hahb⟩ := hva
  obtain ⟨hbh, hbr, hbne, hbhb⟩ := hvb
  cases hha : a.hash with
  | none =>
    cases hhb : b.hash with
    | none =>
      rw [dkEnc_none hha, dkEnc_none hhb] at h
      have h3 := compsEnc_inj har hbr h
      have h1 : a.hash = b.hash := by rw [hha, hhb]
      have h2 : a.hashed = b.hashed := by rw [hane hha, hbne hhb]
      exact show DocKey.mk a.hash a.hashed a.range =
        DocKey.mk b.hash b.hashed b.range by rw [h1, h2, h3]
    | some h2v =>
      exfalso
      rw [dkEnc_none hha, dkEnc_some hhb] at h
      cases hr : a.range with
      | nil => rw [hr] at h; simp [compsEnc] at h
      | cons x xs =>
        obtain ⟨t, rest, htx, _, hne47⟩ := kcEnc_head x
        rw [hr, compsEnc_cons, htx] at h
        exact hne47 (List.cons.inj h).1
  | some h1v =>
    cases hhb : b.hash with
    | none =>
      exfalso
      rw [dkEnc_some hha, dkEnc_none hhb] at h
      cases hr : b.range with
      | nil => rw [hr] at h; simp [compsEnc] at h
      | cons x xs =>
        obtain ⟨t, rest, htx, _, hne47⟩ := kcEnc_head x
        rw [hr, compsEnc_cons, htx] at h
        exact hne47 (List.cons.inj h).1.symm
    | some h2v =>
      have e216 : (256 : Nat) ^ 2 = 2 ^ 16 := by norm_num
      rw [dkEnc_some hha, dkEnc_some hhb] at h
      have h' := (List.cons.inj h).2
      obtain ⟨hbe, hx⟩ := List.append_inj h' (by rw [beBytes_length, beBytes_length])
      have hhv : h1v = h2v := beBytes_inj (by rw [e216]; exact hahb h1v hha)
        (by rw [e216]; exact hbhb h2v hhb) hbe
      by_cases hhl : a.hashed = b.hashed
      · rw [hhl] at hx
        have h3 := compsEnc_inj har hbr (List.append_cancel_left hx)
        have h1 : a.hash = b.hash := by rw [hha, hhb, hhv]
        exact show DocKey.mk a.hash a.hashed a.range =
          DocKey.mk b.hash b.hashed b.range by rw [h1, hhl, h3]
      · exfalso
        have hpa : compsEnc a.hashed <+: compsEnc b.hashed ++ compsEnc b.range :=
          hx ▸ (compsEnc a.hashed).prefix_append (compsEnc a.range)
        have hpb : compsEnc b.hashed <+: compsEnc b.hashed ++ compsEnc b.range :=
          (compsEnc b.hashed).prefix_append (compsEnc b.range)
        rcases List.prefix_or_prefix_of_prefix hpa hpb with h' | h'
        · exact compsEnc_prefix_free hah hbh hhl h'
        · exact compsEnc_prefix_free hbh hah (fun hc => hhl hc.symm) h'

/-! ### Hybrid-time suffix and full subdocument keys -/

theorem dhtEnc_lt {d1 d2 : DHT} (h1 : dhtValid d1) (h2 : dhtValid d2) :
    lexLtB (dhtEnc d1) (dhtEnc d2) = dhtLtB d2 d1 := by
  obtain ⟨ht1, hw1⟩ := h1
  obtain ⟨ht2, hw2⟩ := h2
  have e8 : (256 : Nat) ^ 8 = 2 ^ 64 := by norm_num
  have e4 : (256 : Nat) ^ 4 = 2 ^ 32 := by norm_num
  have b1 : 2 ^ 64 - 1 - d1.1 < 256 ^ 8 := by rw [e8]; omega
  have b2 : 2 ^ 64 - 1 - d2.1 < 256 ^ 8 := by rw [e8]; omega
  have c1 : 2 ^ 32 - 1 - d1.2 < 256 ^ 4 := by rw [e4]; omega
  have c2 : 2 ^ 32 - 1 - d2.2 < 256 ^ 4 := by rw [e4]; omega
  unfold dhtEnc
  rw [lexLtB_cons_same,
    lexLtB_append_eq_length (by rw [beBytes_length, beBytes_length]) _ _]
  by_cases hteq : d1.1 = d2.1
  · rw [hteq, if_pos rfl, beBytes_lt_of_bounds c1 c2, Bool.eq_iff_iff]
    simp only [dhtLtB, decide_eq_true_eq, Bool.or_eq_true, Bool.and_eq_true]
    omega
  · have hne : beBytes 8 (2 ^ 64 - 1 - d1.1) ≠ beBytes 8 (2 ^ 64 - 1 - d2.1) := by
      intro hc
      have := beBytes_inj b1 b2 hc
      omega
    rw [if_neg hne, beBytes_lt_of_bounds b1 b2, Bool.eq_iff_iff]
    simp only [dhtLtB, decide_eq_true_eq, Bool.or_eq_true, Bool.and_eq_true]
    omega

theorem dhtEnc_head (d : DHT) :
    ∃ rest, dhtEnc d = 0x23 :: rest := ⟨_, rfl⟩

theorem sdk_suffix_lt : ∀ {s1 : List KComp} {s2 : List KComp},
    (∀ c ∈ s1, kcValid c) → (∀ c ∈ s2, kcValid c) →
    ∀ {d1 d2 : DHT}, dhtValid d1 → dhtValid d2 →
    lexLtB ((s1.map kcEnc).flatten ++ dhtEnc d1) ((s2.map kcEnc).flatten ++ dhtEnc d2) =
      if s1 = s2 then dhtLtB d2 d1 else kcListLtB s1 s2 := by
  intro s1
  induction s1 with
  | nil =>
    intro s2 _ hv2 d1 d2 hd1 hd2
    cases s2 with
    | nil =>
      simp only [List.map_nil, List.flatten_nil, List.nil_append, if_pos rfl]
      exact dhtEnc_lt hd1 hd2
    | cons y ys =>
      obtain ⟨t, rest, ht, hgt, _⟩ := kcEnc_head y
      rw [List.map_nil, List.flatten_nil, List.nil_append, List.map_cons,
        List.flatten_cons, List.append_assoc, ht]
      show lexLtB (dhtEnc d1) (t :: (rest ++ _)) = _
      obtain ⟨drest, hdr⟩ := dhtEnc_head d1
      rw [hdr]
      have hne : ([] : List KComp) ≠ y :: ys := by simp
      have hlt : (0x23 : Nat) < t := hgt
      simp [lexLtB, kcListLtB, hne, hlt]
  | cons x xs ih =>
    intro s2 hv1 hv2 d1 d2 hd1 hd2
    cases s2 with
    | nil =>
      obtain ⟨t, rest, ht, hgt, _⟩ := kcEnc_head x
      rw [List.map_cons, List.flatten_cons, List.append_assoc, ht,
        List.map_nil, List.flatten_nil, List.nil_append]
      obtain ⟨drest, hdr⟩ := dhtEnc_head d2
      rw [hdr]
      have hne : x :: xs ≠ ([] : List KComp) := by simp
      have h1' : ¬ t < 0x23 := by omega
      have h2' : t ≠ 0x23 := by omega
      simp [lexLtB, kcListLtB, hne, h1', h2']
    | cons y ys =>
      have hx : kcValid x := hv1 x (List.mem_cons_self _ _)
      have hy : kcValid y := hv2 y (List.mem_cons_self _ _)
      rw [List.map_cons, List.flatten_cons, List.append_assoc,
        List.map_cons, List.flatten_cons, List.append_assoc]
      by_cases hxy : x = y
      · subst hxy
        rw [lexLtB_append_left,
          ih (fun c hc => hv1 c (List.mem_cons_of_mem _ hc))
            (fun c hc => hv2 c (List.mem_cons_of_mem _ hc)) hd1 hd2]
        by_cases hl : xs = ys
        · simp [hl]
        · have hne : x :: xs ≠ x :: ys := by simp [hl]
          simp [hl, hne, kcListLtB, kcLtB_irrefl]
      · rw [lexLtB_append_divergent (kcEnc_prefix_free hx hy hxy)
          (kcEnc_prefix_free hy hx (fun hc => hxy hc.symm)), kcEnc_lt hx hy]
        have hne : x :: xs ≠ y :: ys := by simp [hxy]
        rw [if_neg hne]
        cases h : kcLtB x y <;> simp [kcListLtB, hxy, h]

theorem foldl_byte_acc : ∀ (l : List Nat) (acc : Nat),
    l.foldl (fun a b => a * 256 + b) acc =
      acc * 256 ^ l.length + l.foldl (fun a b => a * 256 + b) 0 := by
  intro l
  induction l with
  | nil => intro acc; simp
  | cons b r ih =>
    intro acc
    show r.foldl _ (acc * 256 + b) = acc * 256 ^ (r.length + 1) + r.foldl _ (0 * 256 + b)
    rw [ih (acc * 256 + b), ih (0 * 256 + b), pow_succ]
    ring

theorem bytesVal_cons (b : Nat) (l : List Nat) :
    bytesVal (b :: l) = b * 256 ^ l.length + bytesVal l := by
  show l.foldl _ (0 * 256 + b) = _
  rw [foldl_byte_acc l (0 * 256 + b)]
  simp [bytesVal]

theorem bytesVal_lt {l : List Nat} (h : ∀ x ∈ l, x < 256) :
    bytesVal l < 256 ^ l.length := by
  induction l with
  | nil => simp [bytesVal]
  | cons b r ih =>
    rw [bytesVal_cons]
    have hb : b < 256 := h b (List.mem_cons_self _ _)
    have hr := ih (fun x hx => h x (List.mem_cons_of_mem _ hx))
    calc b * 256 ^ r.length + bytesVal r < b * 256 ^ r.length + 256 ^ r.length := by omega
    _ = (b + 1) * 256 ^ r.length := by ring
    _ ≤ 256 * 256 ^ r.length := Nat.mul_le_mul_right _ (by omega)
    _ = 256 ^ (r.length + 1) := by ring

/-- Byte strings of EQUAL length compare lexicographically exactly as
their big-endian numeric values: the "numeric" reading of the inet
ordering holds only within one address family (one raw length). -/
theorem lexLtB_numeric : ∀ {as bs : List Nat}, as.length = bs.length →
    (∀ x ∈ as, x < 256) → (∀ x ∈ bs, x < 256) →
    lexLtB as bs = decide (bytesVal as < bytesVal bs) := by
  intro as
  induction as with
  | nil =>
    intro bs h _ _
    cases bs with
    | nil => simp [lexLtB, bytesVal]
    | cons b bs => simp at h
  | cons a as ih =>
    intro bs h ha hb
    cases bs with
    | nil => simp at h
    | cons b bs =>
      have h' : as.length = bs.length := by simpa using h
      have hva : bytesVal as < 256 ^ bs.length := by
        rw [← h']; exact bytesVal_lt (fun x hx => ha x (List.mem_cons_of_mem _ hx))
      have hvb : bytesVal bs < 256 ^ bs.length :=
        bytesVal_lt (fun x hx => hb x (List.mem_cons_of_mem _ hx))
      have key : (bytesVal (a :: as) < bytesVal (b :: bs)) ↔
          (a < b ∨ (a = b ∧ bytesVal as < bytesVal bs)) := by
        rw [bytesVal_cons, bytesVal_cons, h']
        have e1 : a * 256 ^ bs.length + bytesVal as =
          bytesVal as + 256 ^ bs.length * a := by ring
        have e2 : b * 256 ^ bs.length + bytesVal bs =
          bytesVal bs + 256 ^ bs.length * b := by ring
        rw [e1, e2]
        exact pos_cmp hva hvb
      show (if a < b then true else if a = b then lexLtB as bs else false) = _
      by_cases hab : a < b
      · rw [if_pos hab]
        exact (decide_eq_true (key.mpr (Or.inl hab))).symm
      · by_cases heq : a = b
        · rw [if_neg hab, if_pos heq,
            ih h' (fun x hx => ha x (List.mem_cons_of_mem _ hx))
              (fun x hx => hb x (List.mem_cons_of_mem _ hx))]
          apply decide_eq_decide.mpr
          rw [key]
          exact ⟨fun hp => Or.inr ⟨heq, hp⟩,
            fun hc => hc.elim (fun h => absurd h hab) And.right⟩
        · rw [if_neg hab, if_neg heq]
          have hno : ¬ (bytesVal (a :: as) < bytesVal (b :: bs)) := fun hc =>
            (key.mp hc).elim (fun h => hab h) (fun h => heq h.1)
          exact (decide_eq_false hno).symm

theorem sdkEnc_lt (dk : DocKey) {s1 s2 : List KComp}
    (hv1 : ∀ c ∈ s1, kcValid c) (hv2 : ∀ c ∈ s2, kcValid c)
    {d1 d2 : DHT} (hd1 : dhtValid d1) (hd2 : dhtValid d2) :
    lexLtB (sdkEnc dk s1 d1) (sdkEnc dk s2 d2) =
      if s1 = s2 then dhtLtB d2 d1 else kcListLtB s1 s2 := by
  unfold sdkEnc
  rw [lexLtB_append_left]
  exact sdk_suffix_lt hv1 hv2 hd1 hd2

/-- C2 counterexample: the IPv4 address 1.2.3.4 (raw bytes `[1,2,3,4]`,
numeric value 16909060) is numerically SMALLER than ::ffff:ffff (raw
16-byte value 4294967295), yet its inet encoding sorts strictly ABOVE:
the encoded bytes of the numerically larger IPv6 address compare below.
So `Encode(a) <_bytes Encode(b)` is NOT equivalent to numeric inet order
across IPv4/IPv6 — the encoding orders inet keys by raw byte strings
(pinned by `TestInetSortOrder`, where `::255.255.255.255` dumps before
`1.2.3.4`). -/
theorem C2_counterexample :
    bytesVal [1, 2, 3, 4] <
      bytesVal [0, 0, 0, 0, 0, 0, 0, 0, 0, 0, 0, 0, 255, 255, 255, 255] ∧
    lexLtB
      (kcEnc (KComp.kcInet [0, 0, 0, 0, 0, 0, 0, 0, 0, 0, 0, 0, 255, 255, 255, 255]))
      (kcEnc (KComp.kcInet [1, 2, 3, 4])) = true ∧
    lexLtB (kcEnc (KComp.kcInet [1, 2, 3, 4]))
      (kcEnc (KComp.kcInet [0, 0, 0, 0, 0, 0, 0, 0, 0, 0, 0, 0, 255, 255, 255, 255]))
      = false := by
  decide

/-- C2 (amended): the encoding is order-preserving and injective, with
inet addresses ordered by raw bytes (numeric only within one address
family). In detail: (1) encoded key components compare byte-wise exactly
as the logical component order `kcLtB` (ints numerically, inet/strings
by raw bytes, the fixed cross-type order on differing kinds); (2)–(3)
component and DocKey encodings are injective on valid keys; (4)–(5)
DocKey encodings compare as `(hash, hashed_components, range_components)`
lexicographically, hashed components entering only when the hash is
present; (6) SubDocKeys sharing a DocKey compare by subkeys first and
then by DESCENDING hybrid time (the newer `DocHybridTime` encodes
strictly below); (7) equal-length raw byte strings (one address family)
compare byte-wise exactly as their numeric values — the cross-family
numeric reading is refuted by the counterexample. -/
theorem C2_encoding_order :
    (∀ a b : KComp, kcValid a → kcValid b →
      lexLtB (kcEnc a) (kcEnc b) = kcLtB a b) ∧
    (∀ a b : KComp, kcValid a → kcValid b → kcEnc a = kcEnc b → a = b) ∧
    (∀ a b : DocKey, dkValid a → dkValid b → dkEnc a = dkEnc b → a = b) ∧
    (∀ a b : DocKey, a.hash = none → b.hash = none → dkValid a → dkValid b →
      lexLtB (dkEnc a) (dkEnc b) = dkLtB a b) ∧
    (∀ (a b : DocKey) (h1 h2 : Nat), a.hash = some h1 → b.hash = some h2 →
      dkValid a → dkValid b → lexLtB (dkEnc a) (dkEnc b) = dkLtB a b) ∧
    (∀ (dk : DocKey) (s1 s2 : List KComp) (d1 d2 : DHT),
      (∀ c ∈ s1, kcValid c) → (∀ c ∈ s2, kcValid c) →
      dhtValid d1 → dhtValid d2 →
      lexLtB (sdkEnc dk s1 d1) (sdkEnc dk s2 d2) =
        if s1 = s2 then dhtLtB d2 d1 else kcListLtB s1 s2) ∧
    (∀ as bs : List Nat, as.length = bs.length → (∀ x ∈ as, x < 256) →
      (∀ x ∈ bs, x < 256) → lexLtB as bs = decide (bytesVal as < bytesVal bs)) :=
  ⟨fun _ _ ha hb => kcEnc_lt ha hb,
    fun _ _ ha hb h => kcEnc_inj ha hb h,
    fun _ _ ha hb h => dkEnc_inj ha hb h,
    fun _ _ ha hb hva hvb => dkEnc_lt_none ha hb hva hvb,
    fun _ _ _ _ ha hb hva hvb => dkEnc_lt_some ha hb hva hvb,
    fun dk _ _ _ _ hv1 hv2 hd1 hd2 => sdkEnc_lt dk hv1 hv2 hd1 hd2,
    fun _ _ h ha hb => lexLtB_numeric h ha hb⟩

/-- C2 witness: the amended ordering theorem applied at concrete keys —
the unhashed DocKey on range component "a" encodes below the one on "b",
and for one DocKey and subkey the SubDocKey written at hybrid time 2000
encodes below the one written at 1000 (descending hybrid time). -/
theorem C2_witness :
    lexLtB (dkEnc { range := [KComp.kcStr [97]] })
      (dkEnc { range := [KComp.kcStr [98]] }) = true ∧
    lexLtB (sdkEnc { range := [KComp.kcStr [97]] } [KComp.kcStr [99]] (2000, 5))
      (sdkEnc { range := [KComp.kcStr [97]] } [KComp.kcStr [99]] (1000, 7)) = true := by
  constructor
  · rw [C2_encoding_order.2.2.2.1 { range := [KComp.kcStr [97]] }
      { range := [KComp.kcStr [98]] } rfl rfl
      ⟨fun c hc => by simp at hc, fun c hc => by fin_cases hc; trivial,
        fun _ => rfl, fun h hc => by cases hc⟩
      ⟨fun c hc => by simp at hc, fun c hc => by fin_cases hc; trivial,
        fun _ => rfl, fun h hc => by cases hc⟩]
    decide
  · rw [C2_encoding_order.2.2.2.2.2.1 { range := [KComp.kcStr [97]] }
      [KComp.kcStr [99]] [KComp.kcStr [99]] (2000, 5) (1000, 7)
      (fun c hc => by fin_cases hc; trivial) (fun c hc => by fin_cases hc; trivial)
      ⟨by norm_num, by norm_num⟩ ⟨by norm_num, by norm_num⟩]
    decide

/-! ## Compaction preservation: order helpers -/

theorem dht_ff_trans {a b c : DHT} (h1 : dhtLtB a b = false)
    (h2 : dhtLtB b c = false) : dhtLtB a c = false := by
  simp only [dhtLtB, Bool.or_eq_false_iff, Bool.and_eq_false_iff,
    decide_eq_false_iff_not] at *
  omega

theorem dht_fl_false {m x a : DHT} (h1 : dhtLtB m x = false)
    (h2 : dhtLtB a x = true) : dhtLtB m a = false := by
  simp only [dhtLtB, Bool.or_eq_false_iff, Bool.and_eq_false_iff,
    Bool.or_eq_true, Bool.and_eq_true, decide_eq_true_eq,
    decide_eq_false_iff_not] at *
  omega

theorem obLt_mono_bound {lb : Option DHT} {w d : DHT} (hw : obLt lb w = false)
    (hd : obLt lb d = true) : dhtLtB d w = false := by
  cases lb with
  | none => simp [obLt] at hw
  | some l =>
    have hw' : dhtLtB l w = false := hw
    have hd' : dhtLtB l d = true := hd
    cases hdw : dhtLtB d w
    · rfl
    · rw [dhtLtB_trans hd' hdw] at hw'
      simp at hw'

theorem isExpired_mono {e : DocEntry} {c rt : Nat} (h : isExpired e c = true)
    (hc : c ≤ rt) : isExpired e rt = true := by
  rcases h' : e.ttl with _ | d
  · unfold isExpired at h; rw [h'] at h; cases h
  · unfold isExpired at h ⊢
    rw [h'] at h ⊢
    simp only [decide_eq_true_eq] at *
    omega

theorem dead_ht_le {e : DocEntry} {c : Nat} (h : deadAtCutoff e c = true) :
    e.dht.1 ≤ c := by
  unfold deadAtCutoff at h
  simp only [Bool.or_eq_true, Bool.and_eq_true, decide_eq_true_eq] at h
  rcases h with ⟨_, h⟩ | h
  · exact h
  · rcases h' : e.ttl with _ | d
    · unfold isExpired at h; rw [h'] at h; cases h
    · unfold isExpired at h
      rw [h'] at h
      simp only [decide_eq_true_eq] at h
      omega

theorem foldl_pickLatest_ub : ∀ {l : List DocEntry} {acc : Option DocEntry}
    {m : DocEntry}, l.foldl pickLatest acc = some m →
    (∀ c ∈ l, dhtLtB m.dht c.dht = false) ∧
    (∀ a, acc = some a → dhtLtB m.dht a.dht = false) := by
  intro l
  induction l with
  | nil =>
    intro acc m h
    refine ⟨fun c hc => absurd hc (List.not_mem_nil c), fun a ha => ?_⟩
    rw [ha] at h
    rw [show a = m from Option.some.inj h]
    exact dhtLtB_irrefl _
  | cons x l ih =>
    intro acc m h
    obtain ⟨h1, h2⟩ := ih h
    constructor
    · intro c hc
      rcases List.mem_cons.mp hc with rfl | hc'
      · cases hacc : acc with
        | none => exact h2 c (by rw [hacc]; rfl)
        | some a =>
          cases hax : dhtLtB a.dht c.dht
          · have hma := h2 a (by
              rw [hacc]
              show (if dhtLtB a.dht c.dht = true then some c else some a) = some a
              rw [if_neg (by simp [hax])])
            exact dht_ff_trans hma hax
          · exact h2 c (by
              rw [hacc]
              show (if dhtLtB a.dht c.dht = true then some c else some a) = some c
              rw [if_pos hax])
      · exact h1 c hc'
    · intro a ha
      cases hax : dhtLtB a.dht x.dht
      · exact h2 a (by
          rw [ha]
          show (if dhtLtB a.dht x.dht = true then some x else some a) = some a
          rw [if_neg (by simp [hax])])
      · have hmx := h2 x (by
          rw [ha]
          show (if dhtLtB a.dht x.dht = true then some x else some a) = some x
          rw [if_pos hax])
        exact dht_fl_false hmx hax

theorem latestAt_ub {s : Store} {p : List PrimitiveValue} {rt : Nat}
    {lb : Option DHT} {m : DocEntry} (h : latestAt s p rt lb = some m) :
    ∀ c ∈ candidates s p rt lb, dhtLtB m.dht c.dht = false :=
  (foldl_pickLatest_ub h).1

/-- What the two readers see at one sub-path `q` when `A` is the store `B`
with some entries dropped: every dropped entry is either superseded by a
strictly newer prefix version, or dead at the cutoff with nothing at or
below it left in `A` that is older.  Under the walk invariants (the `B`
bound dominates all ancestor versions, the `A` bound sits at or below the
`B` bound, and no kept entry lies strictly between the two bounds) the two
`latestAt` results agree, except that a dead `B` maximum simply vanishes
from `A`. -/
theorem node_match (A B : Store) (cutoff rt : Nat)
    (hsub : ∀ a ∈ A, a ∈ B)
    (hwf : ∀ e1 ∈ B, ∀ e2 ∈ B, e1.dht = e2.dht → e1 = e2)
    (hdrop : ∀ e ∈ B, e ∉ A →
      (∃ w ∈ B, w.subkeys <+: e.subkeys ∧ dhtLtB e.dht w.dht = true ∧
        w.dht.1 ≤ rt) ∨
      (deadAtCutoff e cutoff = true ∧
        ∀ e' ∈ A, e.subkeys <+: e'.subkeys → dhtLtB e'.dht e.dht = false))
    (q : List PrimitiveValue) (lbB lbA : Option DHT)
    (hDOM : ∀ w ∈ B, w.dht.1 ≤ rt → w.subkeys <+: q → w.subkeys ≠ q →
      obLt lbB w.dht = false)
    (hLE : ∀ d : DHT, obLt lbB d = true → obLt lbA d = true)
    (hGAP : ∀ e ∈ A, e.dht.1 ≤ rt → q.isPrefixOf e.subkeys = true →
      obLt lbA e.dht = true → obLt lbB e.dht = true) :
    (latestAt B q rt lbB = none ∧ latestAt A q rt lbA = none) ∨
    (∃ m, latestAt B q rt lbB = some m ∧ latestAt A q rt lbA = some m) ∨
    (∃ m, latestAt B q rt lbB = some m ∧ m ∉ A ∧ deadAtCutoff m cutoff = true ∧
      (∀ e' ∈ A, m.subkeys <+: e'.subkeys → dhtLtB e'.dht m.dht = false) ∧
      latestAt A q rt lbA = none) := by
  rcases hB : latestAt B q rt lbB with _ | m
  · left
    refine ⟨rfl, latestAt_eq_none ?_⟩
    intro a haA
    rintro ⟨h1, h2, h3⟩
    have hBmem : a ∈ candidates B q rt lbB := mem_candidates.mpr ⟨hsub a haA, h1, h2,
      hGAP a haA h2 (by rw [h1]; exact List.isPrefixOf_iff_prefix.mpr (List.prefix_refl q)) h3⟩
    obtain ⟨m', hm'⟩ := latestAt_isSome_of_mem hBmem
    rw [hB] at hm'
    exact Option.noConfusion hm'
  · obtain ⟨hmB, hmq, hmrt, hmlb⟩ := mem_candidates.mp (latestAt_mem hB)
    have hub := latestAt_ub hB
    by_cases hmA : m ∈ A
    · right; left
      refine ⟨m, rfl, latestAt_eq_max (mem_candidates.mpr ⟨hmA, hmq, hmrt, hLE _ hmlb⟩) ?_⟩
      intro c hc
      obtain ⟨hcA, hcq, hcrt, hclb⟩ := mem_candidates.mp hc
      have hcB : c ∈ candidates B q rt lbB := mem_candidates.mpr ⟨hsub c hcA, hcq, hcrt,
        hGAP c hcA hcrt (by rw [hcq]; exact List.isPrefixOf_iff_prefix.mpr (List.prefix_refl q)) hclb⟩
      rcases dhtLtB_or_eq_of_not (hub c hcB) with heq | hlt
      · exact Or.inl (hwf c (hsub c hcA) m hmB heq.symm)
      · exact Or.inr hlt
    · right; right
      rcases hdrop m hmB hmA with ⟨w, hwB, hwpre, hwlt, hwrt⟩ | ⟨hdead, hclear⟩
      · exfalso
        by_cases hweq : w.subkeys = q
        · have hwC : w ∈ candidates B q rt lbB := mem_candidates.mpr
            ⟨hwB, hweq, hwrt, obLt_trans_dht hmlb hwlt⟩
          rw [hub w hwC] at hwlt
          exact Bool.noConfusion hwlt
        · have hd := hDOM w hwB hwrt (hmq ▸ hwpre) hweq
          rw [obLt_trans_dht hmlb hwlt] at hd
          exact Bool.noConfusion hd
      · refine ⟨m, rfl, hmA, hdead, hclear, latestAt_eq_none ?_⟩
        intro a haA
        rintro ⟨h1, h2, h3⟩
        have haB : a ∈ candidates B q rt lbB := mem_candidates.mpr ⟨hsub a haA, h1, h2,
          hGAP a haA h2 (by rw [h1]; exact List.isPrefixOf_iff_prefix.mpr (List.prefix_refl q)) h3⟩
        have hma := hub a haB
        have hcl := hclear a haA (by rw [hmq, h1])
        rcases dhtLtB_or_eq_of_not hma with heq | hlt
        · have hae : a = m := hwf a (hsub a haA) m hmB heq.symm
          exact hmA (hae ▸ haA)
        · rw [hcl] at hlt
          exact Bool.noConfusion hlt

/-- The two readers stay in lockstep along the whole shadow-bound walk:
at the full path `q ++ rest` the visible entries agree, except that a
version that is dead at the cutoff vanishes from the compacted store. -/
theorem walk_match (A B : Store) (cutoff rt : Nat)
    (hsub : ∀ a ∈ A, a ∈ B)
    (hwf : ∀ e1 ∈ B, ∀ e2 ∈ B, e1.dht = e2.dht → e1 = e2)
    (hdrop : ∀ e ∈ B, e ∉ A →
      (∃ w ∈ B, w.subkeys <+: e.subkeys ∧ dhtLtB e.dht w.dht = true ∧
        w.dht.1 ≤ rt) ∨
      (deadAtCutoff e cutoff = true ∧
        ∀ e' ∈ A, e.subkeys <+: e'.subkeys → dhtLtB e'.dht e.dht = false)) :
    ∀ (rest q : List PrimitiveValue) (lbB lbA : Option DHT),
      (∀ w ∈ B, w.dht.1 ≤ rt → w.subkeys <+: q → w.subkeys ≠ q →
        obLt lbB w.dht = false) →
      (∀ d : DHT, obLt lbB d = true → obLt lbA d = true) →
      (∀ e ∈ A, e.dht.1 ≤ rt → q.isPrefixOf e.subkeys = true →
        obLt lbA e.dht = true → obLt lbB e.dht = true) →
      ((latestAt B (q ++ rest) rt (lbWalk B rt q rest lbB) = none ∧
        latestAt A (q ++ rest) rt (lbWalk A rt q rest lbA) = none) ∨
       (∃ m, latestAt B (q ++ rest) rt (lbWalk B rt q rest lbB) = some m ∧
         latestAt A (q ++ rest) rt (lbWalk A rt q rest lbA) = some m) ∨
       (∃ m, latestAt B (q ++ rest) rt (lbWalk B rt q rest lbB) = some m ∧
         deadAtCutoff m cutoff = true ∧
         latestAt A (q ++ rest) rt (lbWalk A rt q rest lbA) = none)) := by
  intro rest
  induction rest with
  | nil =>
    intro q lbB lbA hDOM hLE hGAP
    simp only [List.append_nil]
    rcases node_match A B cutoff rt hsub hwf hdrop q lbB lbA hDOM hLE hGAP with
      ⟨h1, h2⟩ | ⟨m, h1, h2⟩ | ⟨m, h1, _, hdead, _, h2⟩
    · exact Or.inl ⟨h1, h2⟩
    · exact Or.inr (Or.inl ⟨m, h1, h2⟩)
    · exact Or.inr (Or.inr ⟨m, h1, hdead, h2⟩)
  | cons k rest ih =>
    intro q lbB lbA hDOM hLE hGAP
    have hassoc : q ++ k :: rest = (q ++ [k]) ++ rest := by simp
    rw [hassoc]
    have hwB : lbWalk B rt q (k :: rest) lbB =
        lbWalk B rt (q ++ [k]) rest (bump lbB (latestAt B q rt lbB)) := rfl
    have hwA : lbWalk A rt q (k :: rest) lbA =
        lbWalk A rt (q ++ [k]) rest (bump lbA (latestAt A q rt lbA)) := rfl
    rw [hwB, hwA]
    rcases node_match A B cutoff rt hsub hwf hdrop q lbB lbA hDOM hLE hGAP with
      ⟨hBn, hAn⟩ | ⟨m, hBm, hAm⟩ | ⟨m, hBm, hmA, hdead, hclear, hAn⟩
    · rw [hBn, hAn]
      show (latestAt B ((q ++ [k]) ++ rest) rt (lbWalk B rt (q ++ [k]) rest lbB) = none ∧ _) ∨ _
      apply ih (q ++ [k]) lbB lbA
      · intro w hwBm hwrt hpre hne
        rcases List.prefix_concat_iff.mp hpre with heq | hpre'
        · exact absurd heq hne
        · by_cases hq : w.subkeys = q
          · cases hob : obLt lbB w.dht
            · rfl
            · exfalso
              have hcand : w ∈ candidates B q rt lbB :=
                mem_candidates.mpr ⟨hwBm, hq, hwrt, hob⟩
              obtain ⟨m', hm'⟩ := latestAt_isSome_of_mem hcand
              rw [hBn] at hm'
              exact Option.noConfusion hm'
          · exact hDOM w hwBm hwrt hpre' hq
      · exact hLE
      · intro e heA hert hpre hob
        refine hGAP e heA hert ?_ hob
        exact List.isPrefixOf_iff_prefix.mpr
          ((q.prefix_append [k]).trans (List.isPrefixOf_iff_prefix.mp hpre))
    · rw [hBm, hAm]
      obtain ⟨hmB, hmq, hmrt, hmlb⟩ := mem_candidates.mp (latestAt_mem hBm)
      have hub := latestAt_ub hBm
      show (latestAt B ((q ++ [k]) ++ rest) rt
        (lbWalk B rt (q ++ [k]) rest (some m.dht)) = none ∧ _) ∨ _
      apply ih (q ++ [k]) (some m.dht) (some m.dht)
      · intro w hwBm hwrt hpre hne
        rcases List.prefix_concat_iff.mp hpre with heq | hpre'
        · exact absurd heq hne
        · by_cases hq : w.subkeys = q
          · cases hob : obLt lbB w.dht
            · exact obLt_mono_bound hob hmlb
            · exact hub w (mem_candidates.mpr ⟨hwBm, hq, hwrt, hob⟩)
          · exact obLt_mono_bound (hDOM w hwBm hwrt hpre' hq) hmlb
      · exact fun d hd => hd
      · exact fun e _ _ _ hob => hob
    · rw [hBm, hAn]
      obtain ⟨hmB, hmq, hmrt, hmlb⟩ := mem_candidates.mp (latestAt_mem hBm)
      have hub := latestAt_ub hBm
      show (latestAt B ((q ++ [k]) ++ rest) rt
        (lbWalk B rt (q ++ [k]) rest (some m.dht)) = none ∧ _) ∨ _
      apply ih (q ++ [k]) (some m.dht) lbA
      · intro w hwBm hwrt hpre hne
        rcases List.prefix_concat_iff.mp hpre with heq | hpre'
        · exact absurd heq hne
        · by_cases hq : w.subkeys = q
          · cases hob : obLt lbB w.dht
            · exact obLt_mono_bound hob hmlb
            · exact hub w (mem_candidates.mpr ⟨hwBm, hq, hwrt, hob⟩)
          · exact obLt_mono_bound (hDOM w hwBm hwrt hpre' hq) hmlb
      · intro d hd
        exact obLt_trans_dht (hLE _ hmlb) hd
      · intro e heA hert hpre _
        have hpre' : m.subkeys <+: e.subkeys := by
          rw [hmq]
          exact (q.prefix_append [k]).trans (List.isPrefixOf_iff_prefix.mp hpre)
        have hcl := hclear e heA hpre'
        rcases dhtLtB_or_eq_of_not hcl with heq | hlt
        · have hae : e = m := hwf e (hsub e heA) m hmB heq
          exact absurd (hae ▸ heA) hmA
        · exact hlt

/-- Dropping only superseded or dead-at-cutoff entries leaves every
sub-path's visible value unchanged at read times at or past the cutoff. -/
theorem liveValueAt_drop_congr (A B : Store) (cutoff rt : Nat) (hrt : cutoff ≤ rt)
    (hsub : ∀ a ∈ A, a ∈ B)
    (hwf : ∀ e1 ∈ B, ∀ e2 ∈ B, e1.dht = e2.dht → e1 = e2)
    (hdrop : ∀ e ∈ B, e ∉ A →
      (∃ w ∈ B, w.subkeys <+: e.subkeys ∧ dhtLtB e.dht w.dht = true ∧
        w.dht.1 ≤ rt) ∨
      (deadAtCutoff e cutoff = true ∧
        ∀ e' ∈ A, e.subkeys <+: e'.subkeys → dhtLtB e'.dht e.dht = false))
    (p : List PrimitiveValue) :
    liveValueAt A rt p = liveValueAt B rt p := by
  have main := walk_match A B cutoff rt hsub hwf hdrop p [] none none
    (by intro w _ _ hpre hne; exact absurd (List.prefix_nil.mp hpre) hne)
    (fun d _ => rfl)
    (fun e _ _ _ _ => rfl)
  simp only [List.nil_append] at main
  unfold liveValueAt entryAt lbAt
  rcases main with ⟨hB, hA⟩ | ⟨m, hB, hA⟩ | ⟨m, hB, hdead, hA⟩
  · rw [hA, hB]
  · rw [hA, hB]
  · rw [hA, hB]
    have hc : (m.value = PrimitiveValue.kTombstone || isExpired m rt) = true := by
      unfold deadAtCutoff at hdead
      simp only [Bool.or_eq_true, Bool.and_eq_true, decide_eq_true_eq] at hdead ⊢
      rcases hdead with ⟨h1, _⟩ | h2
      · exact Or.inl h1
      · exact Or.inr (isExpired_mono h2 hrt)
    show none = if m.value = PrimitiveValue.kTombstone || isExpired m rt
      then none else some m.value
    rw [hc]
    rfl

/-- Two stores whose pointwise visible values agree are `found` on exactly
the same sub-documents. -/
theorem subDocPresent_congr_of_live {s1 s2 : Store} {rt : Nat}
    (h : ∀ q, liveValueAt s1 rt q = liveValueAt s2 rt q) (p : List PrimitiveValue) :
    subDocPresent s1 rt p = subDocPresent s2 rt p := by
  rw [Bool.eq_iff_iff]
  constructor
  · intro h1
    unfold subDocPresent at h1
    rw [List.any_eq_true] at h1
    obtain ⟨e, _, hcond⟩ := h1
    rw [Bool.and_eq_true] at hcond
    exact subDocPresent_of_live hcond.1 (by rw [← h]; exact hcond.2)
  · intro h1
    unfold subDocPresent at h1
    rw [List.any_eq_true] at h1
    obtain ⟨e, _, hcond⟩ := h1
    rw [Bool.and_eq_true] at hcond
    exact subDocPresent_of_live hcond.1 (by rw [h]; exact hcond.2)

/-- A full compaction at cutoff `c` preserves every visible value and
every `found` flag at read times at or past `c` (entries with pairwise
distinct `DocHybridTime`s, as the write path guarantees). -/
theorem fullCompact_preserves (S : Store) (cutoff rt : Nat) (hrt : cutoff ≤ rt)
    (hwf : ∀ e1 ∈ S, ∀ e2 ∈ S, e1.dht = e2.dht → e1 = e2) :
    (∀ p, liveValueAt (fullCompact S cutoff) rt p = liveValueAt S rt p) ∧
    (∀ p, subDocPresent (fullCompact S cutoff) rt p = subDocPresent S rt p) := by
  have hlive : ∀ p, liveValueAt (fullCompact S cutoff) rt p = liveValueAt S rt p := by
    intro p
    apply liveValueAt_drop_congr _ _ cutoff rt hrt
    · intro a ha
      exact (List.mem_filter.mp ha).1
    · exact hwf
    · intro e heB heA
      have hcases : viewSuperseded S cutoff e = true ∨ deadAtCutoff e cutoff = true := by
        by_cases hsup : viewSuperseded S cutoff e = true
        · exact Or.inl hsup
        · by_cases hdead : deadAtCutoff e cutoff = true
          · exact Or.inr hdead
          · exfalso
            rw [Bool.not_eq_true] at hsup hdead
            refine heA (List.mem_filter.mpr ⟨heB, ?_⟩)
            simp [hsup, hdead]
      rcases hcases with hsup | hdead
      · left
        unfold viewSuperseded at hsup
        rw [List.any_eq_true] at hsup
        obtain ⟨w, hwS, hcond⟩ := hsup
        simp only [Bool.and_eq_true, decide_eq_true_eq] at hcond
        obtain ⟨⟨hpre, hlt⟩, hle⟩ := hcond
        exact ⟨w, hwS, List.isPrefixOf_iff_prefix.mp hpre, hlt, le_trans hle hrt⟩
      · right
        refine ⟨hdead, ?_⟩
        intro e' he'A hpre
        have hker := (List.mem_filter.mp he'A).2
        rw [Bool.and_eq_true] at hker
        have hsup' : viewSuperseded S cutoff e' = false := by
          cases h : viewSuperseded S cutoff e'
          · rfl
          · rw [h] at hker
            simp at hker
        unfold viewSuperseded at hsup'
        rw [List.any_eq_false] at hsup'
        have hfe := hsup' e heB
        simp only [Bool.and_eq_true, decide_eq_true_eq, not_and] at hfe
        cases hd : dhtLtB e'.dht e.dht
        · rfl
        · exfalso
          exact hfe ⟨List.isPrefixOf_iff_prefix.mpr hpre, hd⟩ (dead_ht_le hdead)
  exact ⟨hlive, fun p => subDocPresent_congr_of_live hlive p⟩

/-- A minor compaction is the composition of two steps: first drop the
in-view superseded versions, then rewrite the surviving expired
non-marker values into tombstones at the same `DocHybridTime`. -/
theorem filterMap_minorKeep (V : Store) (cutoff : Nat) : ∀ (l : Store),
    l.filterMap (minorKeep V cutoff) =
      (l.filter (fun e => ¬ viewSuperseded V cutoff e)).map
        (fun e => if e.value = PrimitiveValue.kTombstone then e
          else if isExpired e cutoff then
            (if e.value.isCollectionMarker then e
             else { subkeys := e.subkeys, dht := e.dht,
                    value := PrimitiveValue.kTombstone, ttl := none, uts := none })
          else e) := by
  intro l
  induction l with
  | nil => rfl
  | cons x l ih =>
    cases hs : viewSuperseded V cutoff x
    · by_cases ht : x.value = PrimitiveValue.kTombstone
      · simp [minorKeep, hs, ht, ih, List.filterMap_cons, List.filter_cons]
      · by_cases hex : isExpired x cutoff = true
        · by_cases hm : x.value.isCollectionMarker = true
          · simp [minorKeep, hs, ht, hex, hm, ih, List.filterMap_cons, List.filter_cons]
          · simp [minorKeep, hs, ht, hex, hm, ih, List.filterMap_cons, List.filter_cons]
        · simp [minorKeep, hs, ht, hex, ih, List.filterMap_cons, List.filter_cons]
    · simp [minorKeep, hs, ih, List.filterMap_cons, List.filter_cons]

theorem entRel_refl (rt : Nat) (e : DocEntry) : entRel rt e e := ⟨rfl, rfl, rfl⟩

theorem forall2_filter_congr {R : DocEntry → DocEntry → Prop} {f g : DocEntry → Bool}
    (hfg : ∀ a b, R a b → f a = g b) :
    ∀ {l1 l2 : Store}, List.Forall₂ R l1 l2 →
      List.Forall₂ R (l1.filter f) (l2.filter g) := by
  intro l1 l2 h
  induction h with
  | nil => exact List.Forall₂.nil
  | cons h1 h2 ih =>
    rw [List.filter_cons, List.filter_cons, ← hfg _ _ h1]
    cases hfa : f _
    · simp only [hfa, Bool.false_eq_true, if_false]
      exact ih
    · simp only [hfa, if_true]
      exact List.Forall₂.cons h1 ih

theorem forall2_candidates {rt : Nat} {l1 l2 : Store}
    (h : List.Forall₂ (entRel rt) l1 l2) (p : List PrimitiveValue)
    (lb : Option DHT) :
    List.Forall₂ (entRel rt) (candidates l1 p rt lb) (candidates l2 p rt lb) := by
  unfold candidates
  refine forall2_filter_congr ?_ h
  intro a b hab
  rw [hab.1, hab.2.1]

theorem foldl_pickLatest_rel {rt : Nat} : ∀ {l1 l2 : Store},
    List.Forall₂ (entRel rt) l1 l2 →
    ∀ {acc1 acc2 : Option DocEntry},
      ((acc1 = none ∧ acc2 = none) ∨
        ∃ a b, acc1 = some a ∧ acc2 = some b ∧ entRel rt a b) →
      ((l1.foldl pickLatest acc1 = none ∧ l2.foldl pickLatest acc2 = none) ∨
        ∃ a b, l1.foldl pickLatest acc1 = some a ∧
          l2.foldl pickLatest acc2 = some b ∧ entRel rt a b) := by
  intro l1 l2 h
  induction h with
  | nil => exact fun hacc => hacc
  | cons h1 h2 ih =>
    intro acc1 acc2 hacc
    rw [List.foldl_cons, List.foldl_cons]
    apply ih
    rcases hacc with ⟨hn1, hn2⟩ | ⟨x, y, hs1, hs2, hxy⟩
    · rw [hn1, hn2]
      exact Or.inr ⟨_, _, rfl, rfl, h1⟩
    · rw [hs1, hs2]
      right
      show ∃ a' b', (if dhtLtB x.dht _ = true then some _ else some x) = some a' ∧
        (if dhtLtB y.dht _ = true then some _ else some y) = some b' ∧ entRel rt a' b'
      rw [hxy.2.1, h1.2.1]
      cases hlt : dhtLtB y.dht _
      · rw [if_neg (by simp), if_neg (by simp)]
        exact ⟨x, y, rfl, rfl, hxy⟩
      · rw [if_pos rfl, if_pos rfl]
        exact ⟨_, _, rfl, rfl, h1⟩

theorem latestAt_rel {rt : Nat} {l1 l2 : Store}
    (h : List.Forall₂ (entRel rt) l1 l2) (p : List PrimitiveValue)
    (lb : Option DHT) :
    (latestAt l1 p rt lb = none ∧ latestAt l2 p rt lb = none) ∨
      ∃ a b, latestAt l1 p rt lb = some a ∧ latestAt l2 p rt lb = some b ∧
        entRel rt a b :=
  foldl_pickLatest_rel (forall2_candidates h p lb) (Or.inl ⟨rfl, rfl⟩)

theorem lbWalk_rel {rt : Nat} {s1 s2 : Store}
    (h : List.Forall₂ (entRel rt) s1 s2) :
    ∀ (rest q : List PrimitiveValue) (lb : Option DHT),
      lbWalk s1 rt q rest lb = lbWalk s2 rt q rest lb := by
  intro rest
  induction rest with
  | nil => intro q lb; rfl
  | cons k rest ih =>
    intro q lb
    have hb : bump lb (latestAt s1 q rt lb) = bump lb (latestAt s2 q rt lb) := by
      rcases latestAt_rel h q lb with ⟨h1, h2⟩ | ⟨a, b, h1, h2, hab⟩
      · rw [h1, h2]
      · rw [h1, h2]
        show some a.dht = some b.dht
        rw [hab.2.1]
    show lbWalk s1 rt (q ++ [k]) rest (bump lb (latestAt s1 q rt lb)) =
      lbWalk s2 rt (q ++ [k]) rest (bump lb (latestAt s2 q rt lb))
    rw [hb, ih]

theorem liveValueAt_rel {rt : Nat} {s1 s2 : Store}
    (h : List.Forall₂ (entRel rt) s1 s2) (p : List PrimitiveValue) :
    liveValueAt s1 rt p = liveValueAt s2 rt p := by
  unfold liveValueAt entryAt lbAt
  rw [lbWalk_rel h p []]
  rcases latestAt_rel h p (lbWalk s2 rt [] p none) with ⟨h1, h2⟩ | ⟨a, b, h1, h2, hab⟩
  · rw [h1, h2]
  · rw [h1, h2]
    exact hab.2.2

/-- A minor compaction of the view `V` on top of unseen older entries `R`
preserves every visible value and every `found` flag of the combined
store at read times at or past the cutoff. -/
theorem minorCompact_preserves (R V : Store) (cutoff rt : Nat) (hrt : cutoff ≤ rt)
    (hwf : ∀ e1 ∈ R ++ V, ∀ e2 ∈ R ++ V, e1.dht = e2.dht → e1 = e2) :
    (∀ p, liveValueAt (R ++ V.filterMap (minorKeep V cutoff)) rt p =
      liveValueAt (R ++ V) rt p) ∧
    (∀ p, subDocPresent (R ++ V.filterMap (minorKeep V cutoff)) rt p =
      subDocPresent (R ++ V) rt p) := by
  have h1 : ∀ p, liveValueAt (R ++ V.filter (fun e => ¬ viewSuperseded V cutoff e)) rt p
      = liveValueAt (R ++ V) rt p := by
    intro p
    apply liveValueAt_drop_congr _ _ cutoff rt hrt
    · intro a ha
      rcases List.mem_append.mp ha with h | h
      · exact List.mem_append.mpr (Or.inl h)
      · exact List.mem_append.mpr (Or.inr (List.mem_filter.mp h).1)
    · exact hwf
    · intro e heB heA
      left
      rcases List.mem_append.mp heB with hR | hV
      · exact absurd (List.mem_append.mpr (Or.inl hR)) heA
      · have hpred : (¬ viewSuperseded V cutoff e : Bool) = false := by
          by_cases hp : (¬ viewSuperseded V cutoff e : Bool) = true
          · exact absurd (List.mem_append.mpr
              (Or.inr (List.mem_filter.mpr ⟨hV, hp⟩))) heA
          · exact Bool.eq_false_iff.mpr hp
        have hsup : viewSuperseded V cutoff e = true := by
          simp only [decide_eq_false_iff_not, not_not] at hpred
          exact hpred
        unfold viewSuperseded at hsup
        rw [List.any_eq_true] at hsup
        obtain ⟨w, hwV, hcond⟩ := hsup
        simp only [Bool.and_eq_true, decide_eq_true_eq] at hcond
        obtain ⟨⟨hpre, hlt⟩, hle⟩ := hcond
        exact ⟨w, List.mem_append.mpr (Or.inr hwV),
          List.isPrefixOf_iff_prefix.mp hpre, hlt, le_trans hle hrt⟩
  have hrel : List.Forall₂ (entRel rt) (R ++ V.filterMap (minorKeep V cutoff))
      (R ++ V.filter (fun e => ¬ viewSuperseded V cutoff e)) := by
    rw [filterMap_minorKeep]
    refine List.rel_append (List.forall₂_same.mpr fun e _ => entRel_refl rt e) ?_
    rw [List.forall₂_map_left_iff]
    refine List.forall₂_same.mpr ?_
    intro e _
    by_cases ht : e.value = PrimitiveValue.kTombstone
    · rw [if_pos ht]; exact entRel_refl rt e
    · rw [if_neg ht]
      by_cases hex : isExpired e cutoff = true
      · rw [if_pos hex]
        by_cases hm : e.value.isCollectionMarker = true
        · rw [if_pos hm]; exact entRel_refl rt e
        · rw [if_neg hm]
          refine ⟨rfl, rfl, ?_⟩
          simp [visVal, isExpired_mono hex hrt]
      · rw [if_neg hex]; exact entRel_refl rt e
  have hlive : ∀ p, liveValueAt (R ++ V.filterMap (minorKeep V cutoff)) rt p =
      liveValueAt (R ++ V) rt p :=
    fun p => (liveValueAt_rel hrel p).trans (h1 p)
  exact ⟨hlive, fun p => subDocPresent_congr_of_live hlive p⟩

/-- C3: (1) a minor compaction retains every tombstone it cannot prove
superseded within its own view — regardless of the tombstone's hybrid
time or expiration, because an unseen earlier file may still hold an
obsolete version the tombstone must shadow; (2) a full compaction drops
every tombstone with hybrid time at or below the history cutoff outright;
(3) a full compaction changes no visible value and no `found` flag at any
read time at or past the cutoff; (4) neither does a minor compaction of
the view `V` sitting on top of unseen older entries `R` (both preservation
parts assume the write path's invariant that distinct physical entries
carry distinct `DocHybridTime`s). -/
theorem C3_compaction_semantics :
    (∀ (view : Store) (cutoff : Nat) (e : DocEntry),
      e.value = PrimitiveValue.kTombstone → viewSuperseded view cutoff e = false →
      minorKeep view cutoff e = some e) ∧
    (∀ (s : Store) (cutoff : Nat) (e : DocEntry),
      e.value = PrimitiveValue.kTombstone → e.dht.1 ≤ cutoff →
      e ∉ fullCompact s cutoff) ∧
    (∀ (S : Store) (cutoff rt : Nat), cutoff ≤ rt →
      (∀ e1 ∈ S, ∀ e2 ∈ S, e1.dht = e2.dht → e1 = e2) →
      ∀ p, liveValueAt (fullCompact S cutoff) rt p = liveValueAt S rt p ∧
        subDocPresent (fullCompact S cutoff) rt p = subDocPresent S rt p) ∧
    (∀ (R V : Store) (cutoff rt : Nat), cutoff ≤ rt →
      (∀ e1 ∈ R ++ V, ∀ e2 ∈ R ++ V, e1.dht = e2.dht → e1 = e2) →
      ∀ p, liveValueAt (R ++ V.filterMap (minorKeep V cutoff)) rt p =
          liveValueAt (R ++ V) rt p ∧
        subDocPresent (R ++ V.filterMap (minorKeep V cutoff)) rt p =
          subDocPresent (R ++ V) rt p) := by
  refine ⟨?_, ?_, ?_, ?_⟩
  · intro view cutoff e ht hsup
    unfold minorKeep
    rw [if_neg (by simp [hsup]), if_pos ht]
  · intro s cutoff e ht hle hmem
    have hpred := (List.mem_filter.mp hmem).2
    rw [Bool.and_eq_true] at hpred
    have h2 := hpred.2
    simp only [decide_eq_true_eq] at h2
    apply h2
    unfold deadAtCutoff
    simp [ht, hle]
  · intro S cutoff rt hrt hwf p
    exact ⟨(fullCompact_preserves S cutoff rt hrt hwf).1 p,
      (fullCompact_preserves S cutoff rt hrt hwf).2 p⟩
  · intro R V cutoff rt hrt hwf p
    exact ⟨(minorCompact_preserves R V cutoff rt hrt hwf).1 p,
      (minorCompact_preserves R V cutoff rt hrt hwf).2 p⟩

/-- C3 witness: concretely, a row tombstone written at hybrid time 1000
is retained by a minor compaction that cannot see a superseding version,
is dropped by a full compaction with cutoff 1500, and compacting the
two-entry store (tombstone at 1000, integer row at 2000) at cutoff 1500
leaves the value read at hybrid time 3000 unchanged, for the full
compaction and for a minor compaction whose view is only the newer file. -/
theorem C3_witness :
    minorKeep [] 9000 { subkeys := [], dht := (1000, 0), value := PrimitiveValue.kTombstone } = some { subkeys := [], dht := (1000, 0), value := PrimitiveValue.kTombstone } ∧
    { subkeys := [], dht := (1000, 0), value := PrimitiveValue.kTombstone } ∉ fullCompact [{ subkeys := [], dht := (1000, 0), value := PrimitiveValue.kTombstone }, { subkeys := [], dht := (2000, 0), value := PrimitiveValue.kInt64 5 }] 1500 ∧
    liveValueAt (fullCompact [{ subkeys := [], dht := (1000, 0), value := PrimitiveValue.kTombstone }, { subkeys := [], dht := (2000, 0), value := PrimitiveValue.kInt64 5 }] 1500) 3000 [] = liveValueAt [{ subkeys := [], dht := (1000, 0), value := PrimitiveValue.kTombstone }, { subkeys := [], dht := (2000, 0), value := PrimitiveValue.kInt64 5 }] 3000 [] ∧
    liveValueAt ([{ subkeys := [], dht := (1000, 0), value := PrimitiveValue.kTombstone }] ++ [{ subkeys := [], dht := (2000, 0), value := PrimitiveValue.kInt64 5 }].filterMap (minorKeep [{ subkeys := [], dht := (2000, 0), value := PrimitiveValue.kInt64 5 }] 1500)) 3000 [] = liveValueAt ([{ subkeys := [], dht := (1000, 0), value := PrimitiveValue.kTombstone }] ++ [{ subkeys := [], dht := (2000, 0), value := PrimitiveValue.kInt64 5 }]) 3000 [] := by
  refine ⟨C3_compaction_semantics.1 [] 9000 _ rfl rfl,
    C3_compaction_semantics.2.1 _ 1500 _ rfl (by decide),
    (C3_compaction_semantics.2.2.1 _ 1500 3000 (by decide) (by decide) []).1,
    (C3_compaction_semantics.2.2.2 _ _ 1500 3000 (by decide) (by decide) []).1⟩

end DocDb
